import Mathlib

/-!
Verification development for the arxiv-digest resumable digest pipeline.

The definitions below are a shallow embedding of the Python sources
`src/arxiv_digest/storage.py`, `src/arxiv_digest/summarizer.py` and
`src/arxiv_digest/main.py`:

* calendar days are modelled as integers (the image of ISO dates under an
  order isomorphism; `date.fromisoformat` / `isoformat` become the identity),
  except in the on-disk layer where day strings appear inside file names;
* JSON values are modelled by the inductive type `JVal`, and the standard
  library's `json.loads` is an abstract parameter `parse` wherever raw model
  output is parsed;
* the file system is a list of `(path, value)` pairs keyed by paths given as
  component lists, mirroring the `pathlib` operations used by the source;
* stateful orchestration code (`_run_once`, `summarize_papers_stream`) is
  embedded as pure functions that additionally return the ordered trace of
  externally visible events (model calls and persisted artifacts).

Theorems are grouped after the definitions, one per specification claim.
-/

namespace ArxivDigest

/-- Model of `models.Paper` (the two `datetime` fields are omitted: no claim
mentions them and they are carried verbatim by the pipeline). -/
structure Paper where
  paper_id : String
  title : String
  summary : String
  authors : List String
  link : String
  category : String
deriving DecidableEq

/-- Model of the dedup run state persisted by `storage.load_state` /
`storage.save_state`: `seen_by_date` maps a day to the list of recorded item
ids (a Python `dict` with unique keys, hence an association list), and
`last_run_date` is an opaque timestamp string. -/
structure RunState where
  seen_by_date : List (Int × List String)
  last_run_date : Option String
deriving DecidableEq

/-- The ids recorded under one day of the state (`seen_by_date[d]`, empty when
the day is absent). -/
def dayIds (state : RunState) (d : Int) : List String :=
  ((state.seen_by_date).lookup d).getD []

/-- Model of `storage.build_seen_set`: keep the days `d` with
`d >= today - retention_days` and union their id lists.  `date.today()` is the
explicit parameter `today`. -/
def build_seen_set (today : Int) (state : RunState) (retention_days : Nat) : List String :=
  (state.seen_by_date.filter
      (fun e => decide (today - (retention_days : Int) ≤ e.1))).foldr
    (fun e acc => e.2 ++ acc) []

/-- `dict.setdefault(day, [])` followed by appending `ids` to the day's list:
the first binding of `day` is extended, and a missing day is inserted at the
end (Python dict insertion order). -/
def upsertAppend : List (Int × List String) → Int → List String → List (Int × List String)
  | [], d, ids => [(d, ids)]
  | (k, v) :: t, d, ids =>
      if k = d then (k, v ++ ids) :: t else (k, v) :: upsertAppend t d ids

/-- Model of `storage.update_state_with_papers`: append every paper id to
`seen_by_date[target_date]` and stamp `last_run_date` with the current time
(the explicit parameter `now`). -/
def update_state_with_papers (now : String) (state : RunState) (target_date : Int)
    (papers : List Paper) : RunState :=
  { seen_by_date := upsertAppend state.seen_by_date target_date
      (papers.map (fun p => p.paper_id)),
    last_run_date := some now }

theorem mem_foldr_append {α : Type} (x : String) (l : List (α × List String)) :
    x ∈ l.foldr (fun e acc => e.2 ++ acc) [] ↔ ∃ e ∈ l, x ∈ e.2 := by
  induction l with
  | nil => simp
  | cons e t ih => simp [List.mem_append, ih]

theorem lookup_upsertAppend_self (l : List (Int × List String)) (d : Int) (ids : List String) :
    (upsertAppend l d ids).lookup d = some ((l.lookup d).getD [] ++ ids) := by
  induction l with
  | nil => simp [upsertAppend, List.lookup]
  | cons e t ih =>
      by_cases h : e.1 = d
      · simp [upsertAppend, h, List.lookup]
      · have h' : ¬ (d == e.1) = true := by
          simp [beq_iff_eq]; intro he; exact h he.symm
        simp [upsertAppend, h, List.lookup, h', ih]

theorem lookup_upsertAppend_other (l : List (Int × List String)) (d dd : Int)
    (ids : List String) (h : dd ≠ d) :
    (upsertAppend l d ids).lookup dd = l.lookup dd := by
  induction l with
  | nil =>
      have h' : (dd == d) = false := by simp [beq_iff_eq]; exact h
      simp [upsertAppend, List.lookup, h']
  | cons e t ih =>
      by_cases hk : e.1 = d
      · subst hk
        have h' : ¬ (dd == e.1) = true := by simp [beq_iff_eq]; exact h
        simp [upsertAppend, List.lookup, h']
      · by_cases hd : dd = e.1
        · simp [upsertAppend, hk, List.lookup, hd]
        · have h' : ¬ (dd == e.1) = true := by simp [beq_iff_eq]; exact hd
          simp [upsertAppend, hk, List.lookup, h', ih]

theorem lookup_eq_of_mem_nodup {l : List (Int × List String)} {e : Int × List String}
    (hnd : (l.map Prod.fst).Nodup) (he : e ∈ l) : l.lookup e.1 = some e.2 := by
  induction l with
  | nil => cases he
  | cons a t ih =>
      rcases List.mem_cons.mp he with h | h
      · subst h; simp [List.lookup]
      · have hne : e.1 ≠ a.1 := by
          intro hcontra
          have : a.1 ∈ t.map Prod.fst := by
            rw [← hcontra]
            exact List.mem_map.mpr ⟨e, h, rfl⟩
          exact (List.nodup_cons.mp hnd).1 this
        have h' : ¬ (e.1 == a.1) = true := by simp [beq_iff_eq]; exact hne
        simp [List.lookup, h']
        exact ih (List.nodup_cons.mp hnd).2 h

theorem mem_of_lookup_eq_some {l : List (Int × List String)} {d : Int} {v : List String}
    (h : l.lookup d = some v) : (d, v) ∈ l := by
  induction l with
  | nil => simp [List.lookup] at h
  | cons a t ih =>
      by_cases hd : (d == a.1) = true
      · have hd' : d = a.1 := eq_of_beq hd
        simp [List.lookup, hd] at h
        have : (d, v) = a := by
          rcases a with ⟨a1, a2⟩
          simp at hd' h ⊢
          exact ⟨hd', h.symm⟩
        rw [this]
        exact List.mem_cons_self a t
      · simp [List.lookup, hd] at h
        right
        exact ih h

/-- C6: recording items for a target day only grows every day's recorded id
set, and the ids of all recorded items are members of the target day's set in
the produced state. -/
theorem claim6_update_state_monotone (now : String) (state : RunState) (target_date : Int)
    (papers : List Paper) :
    (∀ d x, x ∈ dayIds state d →
        x ∈ dayIds (update_state_with_papers now state target_date papers) d) ∧
    (∀ p, p ∈ papers →
        p.paper_id ∈ dayIds (update_state_with_papers now state target_date papers)
          target_date) := by
  constructor
  · intro d x hx
    by_cases hd : d = target_date
    · subst hd
      unfold dayIds update_state_with_papers at *
      rw [lookup_upsertAppend_self]
      simp only [Option.getD_some]
      exact List.mem_append.mpr (Or.inl hx)
    · unfold dayIds update_state_with_papers at *
      rw [lookup_upsertAppend_other _ _ _ _ hd]
      exact hx
  · intro p hp
    unfold dayIds update_state_with_papers
    rw [lookup_upsertAppend_self]
    simp only [Option.getD_some]
    exact List.mem_append.mpr (Or.inr (List.mem_map.mpr ⟨p, hp, rfl⟩))

theorem claim6_witness :
    (⟨"a", "", "", [], "", ""⟩ : Paper) ∈ [(⟨"a", "", "", [], "", ""⟩ : Paper)] ∧
    "a" ∈ dayIds (update_state_with_papers "t" ⟨[], none⟩ 0 [⟨"a", "", "", [], "", ""⟩]) 0 :=
  ⟨List.mem_singleton.mpr rfl,
    (claim6_update_state_monotone "t" ⟨[], none⟩ 0 [⟨"a", "", "", [], "", ""⟩]).2
      ⟨"a", "", "", [], "", ""⟩ (List.mem_singleton.mpr rfl)⟩

/-- C5 fails as stated: the id `"x"` is recorded under day `0`, the window
`today = 10, r = 3` excludes day `0` (`today - 0 > 3`), yet `"x"` is a member
of the computed seen set because it is also recorded under day `10`. -/
theorem claim5_counterexample :
    "x" ∈ dayIds ⟨[(0, ["x"]), (10, ["x"])], none⟩ 0 ∧
    ¬ ((10 : Int) - 0 ≤ (3 : Nat)) ∧
    "x" ∈ build_seen_set 10 ⟨[(0, ["x"]), (10, ["x"])], none⟩ 3 := by
  refine ⟨?_, by decide, ?_⟩ <;> decide

/-- C5 (amended): an id is a member of the computed seen set iff it is
recorded under some day `d` with `today - d <= r`; in particular, when the id
is recorded under exactly one day `d`, membership holds iff `today - d <= r`.
The computation is a read-only projection of the state by construction. -/
theorem claim5_amended (today : Int) (state : RunState) (r : Nat) (x : String)
    (hnd : (state.seen_by_date.map Prod.fst).Nodup) :
    (x ∈ build_seen_set today state r ↔
      ∃ d, x ∈ dayIds state d ∧ today - d ≤ (r : Int)) ∧
    (∀ d, x ∈ dayIds state d → (∀ d', x ∈ dayIds state d' → d' = d) →
      (x ∈ build_seen_set today state r ↔ today - d ≤ (r : Int))) := by
  have hmain : x ∈ build_seen_set today state r ↔
      ∃ d, x ∈ dayIds state d ∧ today - d ≤ (r : Int) := by
    unfold build_seen_set
    rw [mem_foldr_append]
    constructor
    · rintro ⟨e, he, hx⟩
      have hmem := List.mem_filter.mp he
      refine ⟨e.1, ?_, ?_⟩
      · unfold dayIds
        rw [lookup_eq_of_mem_nodup hnd hmem.1]
        exact hx
      · have := of_decide_eq_true hmem.2
        omega
    · rintro ⟨d, hx, hd⟩
      unfold dayIds at hx
      rcases hv : state.seen_by_date.lookup d with _ | v
      · rw [hv] at hx; simp at hx
      · rw [hv] at hx
        simp only [Option.getD_some] at hx
        refine ⟨(d, v), List.mem_filter.mpr ⟨mem_of_lookup_eq_some hv, ?_⟩, hx⟩
        exact decide_eq_true (by omega)
  refine ⟨hmain, ?_⟩
  intro d hd huniq
  rw [hmain]
  constructor
  · rintro ⟨d', hx', hle'⟩
    rwa [huniq d' hx'] at hle'
  · intro hle
    exact ⟨d, hd, hle⟩

theorem claim5_witness :
    "a" ∈ build_seen_set 0 ⟨[(0, ["a"])], none⟩ 0 :=
  ((claim5_amended 0 ⟨[(0, ["a"])], none⟩ 0 "a" (by decide)).1).mpr
    ⟨0, by decide, by decide⟩

/-- Model of the JSON values handled by the pipeline (summarizer payloads and
persisted records).  `json.dumps` followed by `json.loads` is the identity on
this type, so persisted files store a `JVal` directly. -/
inductive JVal where
  | null : JVal
  | str : String → JVal
  | int : Int → JVal
  | obj : List (String × JVal) → JVal

/-- Field lookup on a JSON object (`dict.get` with a `None`-like default). -/
def JVal.getField : JVal → String → Option JVal
  | JVal.obj fields, k => fields.lookup k
  | _, _ => none

/-- Model of the regex search in `summarizer._extract_json`: the greedy
pattern over the whole text matches from the first opening brace to the last
closing brace, provided the latter comes after the former. -/
def extractBraces (text : String) : Option String :=
  let cs := text.toList
  match cs.findIdx? (fun c => c == '{'), cs.reverse.findIdx? (fun c => c == '}') with
  | some i, some rj =>
      let j := cs.length - 1 - rj
      if i < j then some (String.mk ((cs.drop i).take (j - i + 1))) else none
  | _, _ => none

/-- Model of `summarizer._extract_json`: take the brace-delimited substring
(raising, i.e. `none`, when there is none) and parse it with the abstract
`json.loads` parameter. -/
def extract_json (parse : String → Option JVal) (text : String) : Option JVal :=
  match extractBraces text with
  | none => none
  | some s => parse s

/-- Model of the payload parsing step of `summarizer.summarize_papers_stream`:
try `json.loads` on the raw text, and on failure fall back to
`_extract_json`; `none` is the uncaught exception that aborts the run. -/
def parse_chunk_payload (parse : String → Option JVal) (text : String) : Option JVal :=
  match parse text with
  | some payload => some payload
  | none => extract_json parse text

/-- C7: a direct JSON parse of the summarizer text is used as the payload when
it succeeds; otherwise the brace-extraction fallback is used; and the chunk is
a hard error exactly when both the direct parse and the extraction fail. -/
theorem claim7_parse_fallback (parse : String → Option JVal) (text : String) :
    (∀ p, parse text = some p → parse_chunk_payload parse text = some p) ∧
    (parse text = none → parse_chunk_payload parse text = extract_json parse text) ∧
    (parse_chunk_payload parse text = none ↔
      parse text = none ∧ extract_json parse text = none) := by
  cases h : parse text <;> simp [parse_chunk_payload, h]

theorem claim7_witness :
    parse_chunk_payload (fun _ => none) "ab" = extract_json (fun _ => none) "ab" :=
  (claim7_parse_fallback (fun _ => none) "ab").2.1 rfl

/-- The character of one decimal digit. -/
def digitChar : Nat → Char
  | 0 => '0'
  | 1 => '1'
  | 2 => '2'
  | 3 => '3'
  | 4 => '4'
  | 5 => '5'
  | 6 => '6'
  | 7 => '7'
  | 8 => '8'
  | _ => '9'

/-- Little-endian decimal digits of `n`, with explicit fuel so that the
definition is structurally recursive (the fuel `n` always suffices). -/
def decDigitsAux : Nat → Nat → List Char
  | 0, _ => []
  | _ + 1, 0 => []
  | fuel + 1, n + 1 => digitChar ((n + 1) % 10) :: decDigitsAux fuel ((n + 1) / 10)

/-- Decimal rendering of a natural number (Python `str`/`"%d"`). -/
def decStr (n : Nat) : String :=
  if n = 0 then "0" else String.mk ((decDigitsAux n n).reverse)

/-- Python `"{:02d}"`: decimal rendering left-padded with zeros to width 2. -/
def pad2 (n : Nat) : String :=
  if n < 10 then "0" ++ decStr n else decStr n

/-- A file-system path, as the list of its components (the first component is
the data directory root). -/
abbrev FPath := List String

/-- The file system: a finite map from paths to stored JSON values, modelled
as an association list whose order is the (otherwise unspecified) directory
iteration order. -/
abbrev FS := List (FPath × JVal)

/-- Read a file (`none` when the path is absent). -/
def fsFind (fs : FS) (p : FPath) : Option JVal :=
  fs.lookup p

/-- Create or overwrite the file at `p` (`Path.write_text`). -/
def fsWrite (fs : FS) (p : FPath) (v : JVal) : FS :=
  fs.filter (fun e => !(e.1 == p)) ++ [(p, v)]

/-- Delete the file at `p`. -/
def fsRemove (fs : FS) (p : FPath) : FS :=
  fs.filter (fun e => !(e.1 == p))

/-- `Path.replace`: atomically rename `src` onto `dst`, overwriting `dst`. -/
def fsRename (fs : FS) (src dst : FPath) : FS :=
  match fsFind fs src with
  | none => fs
  | some v => fsWrite (fsRemove fs src) dst v

/-- The temporary path used by `storage._atomic_write`: the final path with
`".tmp"` appended to its file name (`path.with_suffix(path.suffix + ".tmp")`). -/
def tempPath : FPath → FPath
  | [] => []
  | [n] => [n ++ ".tmp"]
  | c :: rest => c :: tempPath rest

/-- A primitive file-system action performed by the persistence layer. -/
inductive FsAction where
  | write (p : FPath) (v : JVal)
  | rename (src dst : FPath)

/-- Execute one primitive action. -/
def applyAction (fs : FS) : FsAction → FS
  | FsAction.write p v => fsWrite fs p v
  | FsAction.rename s d => fsRename fs s d

/-- Execute a sequence of primitive actions. -/
def applyActions (fs : FS) (as : List FsAction) : FS :=
  as.foldl applyAction fs

/-- Model of `storage._atomic_write`: write the full value to the temporary
path, then install it with a single rename. -/
def atomic_write (p : FPath) (v : JVal) : List FsAction :=
  [FsAction.write (tempPath p) v, FsAction.rename (tempPath p) p]

/-- Model of `models.SummaryChunk`. -/
structure SummaryChunk where
  date : String
  chunk_index : Nat
  content : JVal

/-- Path of the global dedup state record (`storage.save_state`). -/
def state_file_path (dataDir : String) : FPath :=
  [dataDir, "state", "state.json"]

/-- Path of a day's raw snapshot (`storage.save_raw_papers`). -/
def raw_papers_path (dataDir day : String) : FPath :=
  [dataDir, day, "raw", "papers.jsonl"]

/-- File name of a chunk summary (`f"summary_part{i:02d}.json"`). -/
def summary_part_name (i : Nat) : String :=
  "summary_part" ++ pad2 i ++ ".json"

/-- Path of a chunk summary (`storage.save_summary_chunk`). -/
def summary_part_path (dataDir day : String) (i : Nat) : FPath :=
  [dataDir, day, "summaries", summary_part_name i]

/-- Path of a day's overall summary (`storage.save_overall_summary`). -/
def summary_overall_path (dataDir day : String) : FPath :=
  [dataDir, day, "summaries", "summary_overall.json"]

/-- Path of a chunk's raw response (`storage.save_response_chunk`). -/
def response_part_path (dataDir day : String) (i : Nat) : FPath :=
  [dataDir, day, "responses", "response_part" ++ pad2 i ++ ".json"]

/-- Path of the overall raw response (`storage.save_overall_response`). -/
def response_overall_path (dataDir day : String) : FPath :=
  [dataDir, day, "responses", "response_overall.json"]

/-- The record written by `storage.save_summary_chunk`. -/
def chunkFilePayload (c : SummaryChunk) : JVal :=
  JVal.obj [("date", JVal.str c.date), ("chunk_index", JVal.int c.chunk_index),
    ("content", c.content)]

/-- The record written by `storage.save_overall_summary`. -/
def overallFilePayload (day : String) (summary : JVal) : JVal :=
  JVal.obj [("date", JVal.str day), ("type", JVal.str "overall"),
    ("content", summary)]

/-- One write of the persistence layer (`storage.save_*`); `summaryChunk`
addresses the partition by `chunk.date`, as the source does after the
round trip `date.fromisoformat` / `strftime("%Y-%m-%d")`, which is the
identity on valid ISO day strings. -/
inductive SaveOp where
  | state (dataDir : String) (st : JVal)
  | rawPapers (dataDir day : String) (v : JVal)
  | summaryChunk (dataDir : String) (c : SummaryChunk)
  | responseChunk (dataDir day : String) (i : Nat) (v : JVal)
  | overallSummary (dataDir day : String) (v : JVal)
  | overallResponse (dataDir day : String) (v : JVal)

/-- The final path written by a persistence-layer write. -/
def SaveOp.finalPath : SaveOp → FPath
  | SaveOp.state dataDir _ => state_file_path dataDir
  | SaveOp.rawPapers dataDir day _ => raw_papers_path dataDir day
  | SaveOp.summaryChunk dataDir c => summary_part_path dataDir c.date c.chunk_index
  | SaveOp.responseChunk dataDir day i _ => response_part_path dataDir day i
  | SaveOp.overallSummary dataDir day _ => summary_overall_path dataDir day
  | SaveOp.overallResponse dataDir day _ => response_overall_path dataDir day

/-- The full serialized value installed by a persistence-layer write. -/
def SaveOp.value : SaveOp → JVal
  | SaveOp.state _ st => st
  | SaveOp.rawPapers _ _ v => v
  | SaveOp.summaryChunk _ c => chunkFilePayload c
  | SaveOp.responseChunk _ _ _ v => v
  | SaveOp.overallSummary _ day v => overallFilePayload day v
  | SaveOp.overallResponse _ _ v => v

/-- The primitive actions a persistence-layer write performs: every
`storage.save_*` serializes its payload and hands it to `_atomic_write`. -/
def SaveOp.actions (op : SaveOp) : List FsAction :=
  atomic_write op.finalPath op.value

/-- Run a persistence-layer write to completion. -/
def save_via (fs : FS) (op : SaveOp) : FS :=
  applyActions fs op.actions

theorem lookup_append {α β : Type} [BEq α] (p : α) (l₁ l₂ : List (α × β)) :
    (l₁ ++ l₂).lookup p =
      match l₁.lookup p with
      | some v => some v
      | none => l₂.lookup p := by
  induction l₁ with
  | nil => simp [List.lookup]
  | cons e t ih =>
      by_cases h : (p == e.1) = true
      · simp [List.lookup, h]
      · have h' : (p == e.1) = false := by
          cases hh : (p == e.1)
          · rfl
          · exact absurd hh h
        simp [List.lookup, h', ih]

theorem lookup_filter_out {α β : Type} [DecidableEq α] [BEq α] [LawfulBEq α]
    (fs : List (α × β)) (p : α) :
    (fs.filter (fun e => !(e.1 == p))).lookup p = none := by
  induction fs with
  | nil => simp [List.lookup]
  | cons e t ih =>
      by_cases h : (e.1 == p) = true
      · simp [List.filter, h, ih]
      · have hne : ¬ (p == e.1) = true := by
          simp [beq_iff_eq] at h ⊢
          intro hc; exact h hc.symm
        simp [List.filter, h, List.lookup, hne, ih]

theorem lookup_filter_other {α β : Type} [DecidableEq α] [BEq α] [LawfulBEq α]
    (fs : List (α × β)) (p q : α) (h : p ≠ q) :
    (fs.filter (fun e => !(e.1 == q))).lookup p = fs.lookup p := by
  induction fs with
  | nil => simp [List.lookup]
  | cons e t ih =>
      by_cases he : (e.1 == q) = true
      · have : ¬ (p == e.1) = true := by
          simp [beq_iff_eq] at he ⊢
          rw [he]; exact h
        simp [List.filter, he, List.lookup, this, ih]
      · by_cases hp : (p == e.1) = true
        · simp [List.filter, he, List.lookup, hp]
        · simp [List.filter, he, List.lookup, hp, ih]

theorem find_write_self (fs : FS) (p : FPath) (v : JVal) :
    fsFind (fsWrite fs p v) p = some v := by
  unfold fsFind fsWrite
  rw [lookup_append]
  rw [lookup_filter_out]
  simp [List.lookup]

theorem find_write_other (fs : FS) (p q : FPath) (v : JVal) (h : p ≠ q) :
    fsFind (fsWrite fs q v) p = fsFind fs p := by
  unfold fsFind fsWrite
  rw [lookup_append]
  rw [lookup_filter_other fs p q h]
  cases hf : fs.lookup p with
  | none =>
      have : ¬ (p == q) = true := by simp [beq_iff_eq]; exact h
      simp [List.lookup, this]
  | some v' => rfl

theorem find_remove_self (fs : FS) (p : FPath) :
    fsFind (fsRemove fs p) p = none := by
  unfold fsFind fsRemove
  exact lookup_filter_out fs p

theorem find_remove_other (fs : FS) (p q : FPath) (h : p ≠ q) :
    fsFind (fsRemove fs q) p = fsFind fs p := by
  unfold fsFind fsRemove
  exact lookup_filter_other fs p q h

theorem strAppend_tmp_ne (s : String) : s ++ ".tmp" ≠ s := by
  intro h
  have hlen := congrArg String.length h
  rw [String.length_append] at hlen
  have h4 : (".tmp" : String).length = 4 := rfl
  rw [h4] at hlen
  omega

theorem tempPath_ne (op : SaveOp) : tempPath op.finalPath ≠ op.finalPath := by
  cases op <;>
    simp [SaveOp.finalPath, state_file_path, raw_papers_path, summary_part_path,
      response_part_path, summary_overall_path, response_overall_path, tempPath] <;>
    intro h <;>
    exact strAppend_tmp_ne _ h

/-- C8: every persistence-layer write (state, raw snapshot, chunk summary,
chunk response, overall summary, overall response) consists of writing the
full serialized value to a temporary path in the same directory followed by a
single rename onto the final path; at every crash point, including an
arbitrary partial value sitting at the temporary path, a reader of the final
path observes either the previous value or the complete new value. -/
theorem claim8_atomic_writes (op : SaveOp) (fs : FS) (garbage : JVal) (s : FS)
    (hs : s = fs ∨ s = fsWrite fs (tempPath op.finalPath) garbage ∨ s = save_via fs op) :
    op.actions = [FsAction.write (tempPath op.finalPath) op.value,
        FsAction.rename (tempPath op.finalPath) op.finalPath] ∧
    (tempPath op.finalPath).dropLast = op.finalPath.dropLast ∧
    (fsFind s op.finalPath = fsFind fs op.finalPath ∨
      fsFind s op.finalPath = some op.value) := by
  refine ⟨rfl, ?_, ?_⟩
  · cases op <;> rfl
  · rcases hs with h | h | h
    · subst h; exact Or.inl rfl
    · subst h
      exact Or.inl (find_write_other fs op.finalPath (tempPath op.finalPath) garbage
        (fun hc => tempPath_ne op hc.symm))
    · subst h
      right
      show fsFind (applyActions fs op.actions) op.finalPath = some op.value
      have : applyActions fs op.actions =
          fsRename (fsWrite fs (tempPath op.finalPath) op.value)
            (tempPath op.finalPath) op.finalPath := rfl
      rw [this]
      unfold fsRename
      rw [find_write_self]
      exact find_write_self _ _ _

theorem claim8_witness :
    fsFind (save_via [] (SaveOp.state "data" JVal.null)) (state_file_path "data") =
        fsFind ([] : FS) (state_file_path "data") ∨
      fsFind (save_via [] (SaveOp.state "data" JVal.null)) (state_file_path "data") =
        some JVal.null :=
  (claim8_atomic_writes (SaveOp.state "data" JVal.null) [] JVal.null
    (save_via [] (SaveOp.state "data" JVal.null)) (Or.inr (Or.inr rfl))).2.2

theorem decDigitsAux_eq (fuel n : Nat) (h : n ≤ fuel) :
    decDigitsAux fuel n = (Nat.digits 10 n).map digitChar := by
  induction fuel generalizing n with
  | zero =>
      have : n = 0 := Nat.le_zero.mp h
      subst this
      simp [decDigitsAux]
  | succ f ih =>
      cases n with
      | zero => simp [decDigitsAux]
      | succ m =>
          rw [decDigitsAux]
          rw [Nat.digits_def' (by norm_num : (1 : Nat) < 10) (Nat.succ_pos m)]
          rw [List.map_cons]
          congr 1
          exact ih ((m + 1) / 10) (by omega)

theorem digitChar_inj_lt :
    ∀ a, a < 10 → ∀ b, b < 10 → digitChar a = digitChar b → a = b := by decide

theorem digitChar_ne_zero_char :
    ∀ d, d < 10 → d ≠ 0 → digitChar d ≠ '0' := by decide

theorem map_digitChar_inj :
    ∀ (l₁ l₂ : List Nat), (∀ d ∈ l₁, d < 10) → (∀ d ∈ l₂, d < 10) →
      l₁.map digitChar = l₂.map digitChar → l₁ = l₂ := by
  intro l₁
  induction l₁ with
  | nil =>
      intro l₂ _ _ h
      cases l₂ with
      | nil => rfl
      | cons b t => simp at h
  | cons a t ih =>
      intro l₂ h₁ h₂ h
      cases l₂ with
      | nil => simp at h
      | cons b t₂ =>
          simp only [List.map_cons, List.cons.injEq] at h
          have ha : a < 10 := h₁ a (List.mem_cons_self a t)
          have hb : b < 10 := h₂ b (List.mem_cons_self b t₂)
          have hab : a = b := digitChar_inj_lt a ha b hb h.1
          have ht : t = t₂ :=
            ih t₂ (fun d hd => h₁ d (List.mem_cons_of_mem a hd))
              (fun d hd => h₂ d (List.mem_cons_of_mem b hd)) h.2
          rw [hab, ht]

theorem decStr_data (n : Nat) (hn : n ≠ 0) :
    (decStr n).data = ((Nat.digits 10 n).map digitChar).reverse := by
  unfold decStr
  rw [if_neg hn, decDigitsAux_eq n n le_rfl]

theorem decStr_head_ne_zero (n : Nat) (hn : n ≠ 0) (c : Char)
    (hc : (decStr n).data.head? = some c) : c ≠ '0' := by
  rw [decStr_data n hn] at hc
  rw [List.head?_reverse, List.getLast?_map] at hc
  have hne : Nat.digits 10 n ≠ [] := Nat.digits_ne_nil_iff_ne_zero.mpr hn
  rw [List.getLast?_eq_getLast_of_ne_nil hne] at hc
  simp only [Option.map_some', Option.some.injEq] at hc
  have hlast_mem : (Nat.digits 10 n).getLast hne ∈ Nat.digits 10 n :=
    List.getLast_mem hne
  have hlt : (Nat.digits 10 n).getLast hne < 10 :=
    Nat.digits_lt_base (by norm_num) hlast_mem
  have hnz : (Nat.digits 10 n).getLast hne ≠ 0 :=
    Nat.getLast_digit_ne_zero 10 hn
  rw [← hc]
  exact digitChar_ne_zero_char _ hlt hnz

theorem decStr_inj (m n : Nat) (h : decStr m = decStr n) : m = n := by
  by_cases hm : m = 0 <;> by_cases hn : n = 0
  · rw [hm, hn]
  · exfalso
    subst hm
    have hd := congrArg String.data h
    have h0 : (decStr 0).data = ['0'] := rfl
    rw [h0] at hd
    have hc : (decStr n).data.head? = some '0' := by rw [← hd]; rfl
    exact decStr_head_ne_zero n hn '0' hc rfl
  · exfalso
    subst hn
    have hd := congrArg String.data h
    have h0 : (decStr 0).data = ['0'] := rfl
    rw [h0] at hd
    have hc : (decStr m).data.head? = some '0' := by rw [hd]; rfl
    exact decStr_head_ne_zero m hm '0' hc rfl
  · have hd := congrArg String.data h
    rw [decStr_data m hm, decStr_data n hn] at hd
    have hmap := List.reverse_injective hd
    have hdig := map_digitChar_inj _ _
      (fun d hdm => Nat.digits_lt_base (by norm_num) hdm)
      (fun d hdn => Nat.digits_lt_base (by norm_num) hdn) hmap
    exact Nat.digits.injective 10 hdig

theorem decStr_data_head_pad (m : Nat) :
    ("0" ++ decStr m).data.head? = some '0' := by
  rw [String.data_append]
  rfl

theorem pad2_inj (m n : Nat) (h : pad2 m = pad2 n) : m = n := by
  unfold pad2 at h
  by_cases hm : m < 10 <;> by_cases hn : n < 10
  · rw [if_pos hm, if_pos hn] at h
    have hd := congrArg String.data h
    rw [String.data_append, String.data_append] at hd
    have := List.append_cancel_left hd
    exact decStr_inj m n (String.ext this)
  · exfalso
    rw [if_pos hm, if_neg hn] at h
    have hc : (decStr n).data.head? = some '0' := by
      rw [← h]
      exact decStr_data_head_pad m
    exact decStr_head_ne_zero n (by omega) '0' hc rfl
  · exfalso
    rw [if_neg hm, if_pos hn] at h
    have hc : (decStr m).data.head? = some '0' := by
      rw [h]
      exact decStr_data_head_pad n
    exact decStr_head_ne_zero m (by omega) '0' hc rfl
  · rw [if_neg hm, if_neg hn] at h
    exact decStr_inj m n h

theorem summary_part_name_inj (i j : Nat) (h : summary_part_name i = summary_part_name j) :
    i = j := by
  unfold summary_part_name at h
  have hd := congrArg String.data h
  simp only [String.data_append] at hd
  have h₁ := List.append_cancel_right hd
  have h₂ := List.append_cancel_left h₁
  exact pad2_inj i j (String.ext h₂)

/-- Python `str.startswith`, on the underlying character lists. -/
def strStartsWith (s pre : String) : Bool :=
  pre.data.isPrefixOf s.data

/-- The entry a file contributes to the listing of directory `dir`
(its file name and content), if it lies directly in `dir`. -/
def entryInDir (dir : FPath) (e : FPath × JVal) : Option (String × JVal) :=
  match e.1.getLast? with
  | some name => if e.1.dropLast = dir then some (name, e.2) else none
  | none => none

/-- Directory listing (`Path.iterdir`), in file-system order. -/
def fsInDir (fs : FS) (dir : FPath) : List (String × JVal) :=
  fs.filterMap (entryInDir dir)

/-- Model of `storage.save_summary_chunk` run to completion. -/
def save_summary_chunk (fs : FS) (dataDir : String) (chunk : SummaryChunk) : FS :=
  save_via fs (SaveOp.summaryChunk dataDir chunk)

/-- Model of `storage.save_overall_summary` run to completion. -/
def save_overall_summary (fs : FS) (dataDir day : String) (summary : JVal) : FS :=
  save_via fs (SaveOp.overallSummary dataDir day summary)

/-- `int(payload.get("chunk_index", 0))` — `none` is the exception raised on
a payload that is not an object or has a non-integer index. -/
def chunkIndexOf : JVal → Option Int
  | JVal.obj fields =>
      match fields.lookup "chunk_index" with
      | none => some 0
      | some (JVal.int n) => some n
      | some _ => none
  | _ => none

/-- `payload.get("content", {})` — `none` is the exception raised on a
payload that is not an object. -/
def contentOf : JVal → Option JVal
  | JVal.obj fields =>
      match fields.lookup "content" with
      | none => some (JVal.obj [])
      | some v => some v
  | _ => none

/-- Python dict assignment `chunks[chunk_index] = content` on an association
list (only the resulting mapping matters to the claims). -/
def dictInsert (m : List (Int × JVal)) (k : Int) (v : JVal) : List (Int × JVal) :=
  m.filter (fun e => !(e.1 == k)) ++ [(k, v)]

/-- The loop body of `storage.load_summary_chunks` over the directory
listing: keep files whose name starts with `"summary_part"`, read their
payload, and record `content` under `chunk_index` when the index is
positive. -/
def loadChunksAux : List (String × JVal) → List (Int × JVal) → Option (List (Int × JVal))
  | [], m => some m
  | (name, payload) :: rest, m =>
      if strStartsWith name "summary_part" then
        match chunkIndexOf payload, contentOf payload with
        | some idx, some content =>
            if 0 < idx then loadChunksAux rest (dictInsert m idx content)
            else loadChunksAux rest m
        | _, _ => none
      else loadChunksAux rest m

/-- Model of `storage.load_summary_chunks` (an absent directory yields the
empty listing, hence the empty map, as in the source). -/
def load_summary_chunks (fs : FS) (dataDir day : String) : Option (List (Int × JVal)) :=
  loadChunksAux (fsInDir fs [dataDir, day, "summaries"]) []

/-- Model of `storage.has_summary_for_date`. -/
def has_summary_for_date (fs : FS) (dataDir day : String) : Bool :=
  (fsInDir fs [dataDir, day, "summaries"]).any
    (fun e => strStartsWith e.1 "summary_part")

theorem filter_idem {α : Type} (p : α → Bool) (l : List α) :
    (l.filter p).filter p = l.filter p := by
  induction l with
  | nil => rfl
  | cons a t ih =>
      by_cases h : p a = true
      · simp [List.filter, h, ih]
      · simp [List.filter, h, ih]

theorem remove_write_self (fs : FS) (q : FPath) (v : JVal) :
    fsRemove (fsWrite fs q v) q = fsRemove fs q := by
  unfold fsRemove fsWrite
  rw [List.filter_append, filter_idem]
  simp

theorem save_via_eq (fs : FS) (op : SaveOp) :
    save_via fs op =
      fsWrite (fsRemove fs (tempPath op.finalPath)) op.finalPath op.value := by
  show fsRename (fsWrite fs (tempPath op.finalPath) op.value)
      (tempPath op.finalPath) op.finalPath = _
  unfold fsRename
  rw [find_write_self, remove_write_self]

theorem entryInDir_eq_some {dir : FPath} {e : FPath × JVal} {nm : String} {v : JVal} :
    entryInDir dir e = some (nm, v) ↔ e.1 = dir ++ [nm] ∧ e.2 = v := by
  constructor
  · intro h
    unfold entryInDir at h
    split at h
    next name heq =>
      split at h
      next hd =>
        simp only [Option.some.injEq, Prod.mk.injEq] at h
        have hne : e.1 ≠ [] := by
          intro hnil; rw [hnil] at heq; simp at heq
        have hlast := List.getLast?_eq_getLast_of_ne_nil hne
        rw [heq] at hlast
        have hname : e.1.getLast hne = name := (Option.some.inj hlast).symm
        have hsplit : e.1.dropLast ++ [e.1.getLast hne] = e.1 :=
          List.dropLast_append_getLast hne
        refine ⟨?_, h.2⟩
        rw [← hsplit, hd, hname, h.1]
      next hd => exact absurd h (by simp)
    next heq => exact absurd h (by simp)
  · rintro ⟨h1, h2⟩
    unfold entryInDir
    rw [h1]
    have hgl : (dir ++ [nm]).getLast? = some nm := List.getLast?_concat _
    have hdl : (dir ++ [nm]).dropLast = dir := List.dropLast_concat
    rw [hgl]
    simp [hdl, h2]

theorem entryInDir_concat_self (dir : FPath) (nm : String) (v : JVal) :
    entryInDir dir (dir ++ [nm], v) = some (nm, v) :=
  entryInDir_eq_some.mpr ⟨rfl, rfl⟩

theorem entryInDir_eq_none {dir : FPath} {e : FPath × JVal}
    (h : ∀ name, e.1 ≠ dir ++ [name]) : entryInDir dir e = none := by
  cases he : entryInDir dir e with
  | none => rfl
  | some x =>
      exfalso
      rcases x with ⟨nm, v⟩
      exact h nm (entryInDir_eq_some.mp he).1

theorem fsInDir_append (fs₁ fs₂ : FS) (dir : FPath) :
    fsInDir (fs₁ ++ fs₂) dir = fsInDir fs₁ dir ++ fsInDir fs₂ dir := by
  unfold fsInDir
  exact List.filterMap_append _ _ _

theorem fsInDir_filterPath_in (fs : FS) (dir : FPath) (name : String) :
    fsInDir (fs.filter (fun e => !(e.1 == dir ++ [name]))) dir =
      (fsInDir fs dir).filter (fun e => !(e.1 == name)) := by
  induction fs with
  | nil => rfl
  | cons e t ih =>
      by_cases he : e.1 = dir ++ [name]
      · have hbeq : (e.1 == dir ++ [name]) = true := beq_iff_eq.mpr he
        have hentry : entryInDir dir e = some (name, e.2) :=
          entryInDir_eq_some.mpr ⟨he, rfl⟩
        simp only [List.filter, hbeq, Bool.not_true]
        rw [ih]
        unfold fsInDir
        rw [List.filterMap_cons, hentry]
        simp [List.filter]
      · have hbeq : (e.1 == dir ++ [name]) = false := by
          simp [beq_iff_eq]; exact he
        simp only [List.filter, hbeq, Bool.not_false]
        unfold fsInDir at *
        rw [List.filterMap_cons, List.filterMap_cons]
        cases hentry : entryInDir dir e with
        | none => rw [ih]
        | some x =>
            rcases x with ⟨nm, v⟩
            have hx := entryInDir_eq_some.mp hentry
            have hnm : nm ≠ name := by
              intro hc; rw [hc] at hx; exact he hx.1
            have hcond : (!((nm, v).1 == name)) = true := by
              simp [beq_iff_eq]; exact hnm
            rw [List.filter_cons, if_pos hcond, ih]

theorem fsInDir_filterPath_out (fs : FS) (dir : FPath) (p : FPath)
    (h : ∀ name, p ≠ dir ++ [name]) :
    fsInDir (fs.filter (fun e => !(e.1 == p))) dir = fsInDir fs dir := by
  induction fs with
  | nil => rfl
  | cons e t ih =>
      by_cases he : e.1 = p
      · have hbeq : (e.1 == p) = true := beq_iff_eq.mpr he
        have hentry : entryInDir dir e = none := by
          apply entryInDir_eq_none
          intro name
          rw [he]
          exact h name
        simp only [List.filter, hbeq, Bool.not_true]
        rw [ih]
        unfold fsInDir
        rw [List.filterMap_cons, hentry]
      · have hbeq : (e.1 == p) = false := by simp [beq_iff_eq]; exact he
        simp only [List.filter, hbeq, Bool.not_false]
        unfold fsInDir at *
        rw [List.filterMap_cons, List.filterMap_cons]
        cases hentry : entryInDir dir e with
        | none => exact ih
        | some x => rw [ih]

theorem fsInDir_singleton_mem (dir : FPath) (name : String) (v : JVal) :
    fsInDir [(dir ++ [name], v)] dir = [(name, v)] := by
  unfold fsInDir
  rw [List.filterMap_cons, entryInDir_concat_self]
  rfl

theorem fsInDir_singleton_none (dir : FPath) (p : FPath) (v : JVal)
    (h : ∀ name, p ≠ dir ++ [name]) :
    fsInDir [(p, v)] dir = [] := by
  unfold fsInDir
  rw [List.filterMap_cons, entryInDir_eq_none h]
  rfl

theorem fsInDir_write_in (fs : FS) (dir : FPath) (name : String) (v : JVal) :
    fsInDir (fsWrite fs (dir ++ [name]) v) dir =
      (fsInDir fs dir).filter (fun e => !(e.1 == name)) ++ [(name, v)] := by
  unfold fsWrite
  rw [fsInDir_append, fsInDir_filterPath_in, fsInDir_singleton_mem]

theorem fsInDir_write_out (fs : FS) (dir : FPath) (p : FPath) (v : JVal)
    (h : ∀ name, p ≠ dir ++ [name]) :
    fsInDir (fsWrite fs p v) dir = fsInDir fs dir := by
  unfold fsWrite
  rw [fsInDir_append, fsInDir_filterPath_out fs dir p h, fsInDir_singleton_none dir p v h]
  simp

theorem fsInDir_remove_in (fs : FS) (dir : FPath) (name : String) :
    fsInDir (fsRemove fs (dir ++ [name])) dir =
      (fsInDir fs dir).filter (fun e => !(e.1 == name)) := by
  unfold fsRemove
  exact fsInDir_filterPath_in fs dir name

theorem fsInDir_remove_out (fs : FS) (dir : FPath) (p : FPath)
    (h : ∀ name, p ≠ dir ++ [name]) :
    fsInDir (fsRemove fs p) dir = fsInDir fs dir := by
  unfold fsRemove
  exact fsInDir_filterPath_out fs dir p h

theorem filter_name_eq_self (l : List (String × JVal)) (nm : String)
    (h : ∀ e ∈ l, e.1 ≠ nm) :
    l.filter (fun e => !(e.1 == nm)) = l := by
  rw [List.filter_eq_self]
  intro e he
  simp [beq_iff_eq]
  exact h e he

theorem isPrefixOf_append_self {α : Type} [BEq α] [LawfulBEq α] (a b : List α) :
    a.isPrefixOf (a ++ b) = true := by
  induction a with
  | nil => cases b <;> rfl
  | cons x xs ih => simp [List.isPrefixOf, List.cons_append, ih]

theorem strStartsWith_append (pre rest : String) :
    strStartsWith (pre ++ rest) pre = true := by
  unfold strStartsWith
  rw [String.data_append]
  exact isPrefixOf_append_self _ _

theorem summary_part_name_pref (i : Nat) :
    strStartsWith (summary_part_name i) "summary_part" = true := by
  have : summary_part_name i = "summary_part" ++ (pad2 i ++ ".json") := by
    unfold summary_part_name
    rw [String.append_assoc]
  rw [this]
  exact strStartsWith_append _ _

theorem summary_part_tmp_pref (i : Nat) :
    strStartsWith (summary_part_name i ++ ".tmp") "summary_part" = true := by
  have : summary_part_name i ++ ".tmp" =
      "summary_part" ++ (pad2 i ++ ".json" ++ ".tmp") := by
    unfold summary_part_name
    rw [String.append_assoc, String.append_assoc, String.append_assoc]
  rw [this]
  exact strStartsWith_append _ _

theorem data_getLast_json (s : String) : (s ++ ".json").data.getLast? = some 'n' := by
  rw [String.data_append]
  have h5 : (".json" : String).data = ['.', 'j', 's', 'o'] ++ ['n'] := rfl
  rw [h5, ← List.append_assoc]
  exact List.getLast?_concat _

theorem data_getLast_tmp (s : String) : (s ++ ".tmp").data.getLast? = some 'p' := by
  rw [String.data_append]
  have h4 : (".tmp" : String).data = ['.', 't', 'm'] ++ ['p'] := rfl
  rw [h4, ← List.append_assoc]
  exact List.getLast?_concat _

theorem summary_part_name_ne_tmp (i : Nat) (s : String) :
    summary_part_name i ≠ s ++ ".tmp" := by
  intro h
  have hj : summary_part_name i = ("summary_part" ++ pad2 i) ++ ".json" := rfl
  have h1 := data_getLast_json ("summary_part" ++ pad2 i)
  rw [← hj, h, data_getLast_tmp] at h1
  simp at h1

theorem lookup_none_forall {α β : Type} [BEq α] [LawfulBEq α]
    (l : List (α × β)) (p : α) (h : l.lookup p = none) : ∀ e ∈ l, e.1 ≠ p := by
  induction l with
  | nil => intro e he; cases he
  | cons a t ih =>
      intro e he hc
      by_cases hb : (p == a.1) = true
      · simp [List.lookup, hb] at h
      · have hb' : (p == a.1) = false := by
          cases hh : (p == a.1)
          · rfl
          · exact absurd hh hb
        simp only [List.lookup, hb'] at h
        rcases List.mem_cons.mp he with h' | h'
        · rw [h'] at hc
          exact hb (beq_iff_eq.mpr hc.symm)
        · exact ih h e h' hc

theorem mem_fsInDir_path (fs : FS) (dir : FPath) (e : String × JVal)
    (he : e ∈ fsInDir fs dir) : (dir ++ [e.1], e.2) ∈ fs := by
  unfold fsInDir at he
  rcases List.mem_filterMap.mp he with ⟨a, ha, hae⟩
  rcases e with ⟨nm, v⟩
  have h := entryInDir_eq_some.mp hae
  have : a = (dir ++ [nm], v) := by
    rcases a with ⟨ap, av⟩
    simp at h ⊢
    exact ⟨h.1, h.2⟩
  rw [← this]
  exact ha

theorem loadChunksAux_append (l₁ l₂ : List (String × JVal)) (m : List (Int × JVal)) :
    loadChunksAux (l₁ ++ l₂) m =
      match loadChunksAux l₁ m with
      | some m' => loadChunksAux l₂ m'
      | none => none := by
  induction l₁ generalizing m with
  | nil => rfl
  | cons e rest ih =>
      rcases e with ⟨name, payload⟩
      show loadChunksAux ((name, payload) :: (rest ++ l₂)) m = _
      by_cases hp : strStartsWith name "summary_part" = true
      · simp only [loadChunksAux, if_pos hp]
        cases hci : chunkIndexOf payload with
        | none => rfl
        | some idx =>
            cases hco : contentOf payload with
            | none => rfl
            | some content =>
                dsimp only
                by_cases hpos : 0 < idx
                · rw [if_pos hpos, if_pos hpos, ih]
                · rw [if_neg hpos, if_neg hpos, ih]
      · simp only [loadChunksAux, if_neg hp]
        exact ih m

theorem loadChunksAux_skip (l : List (String × JVal)) (m : List (Int × JVal))
    (h : ∀ e ∈ l, ¬ strStartsWith e.1 "summary_part" = true) :
    loadChunksAux l m = some m := by
  induction l with
  | nil => rfl
  | cons e rest ih =>
      rcases e with ⟨name, payload⟩
      have hn : ¬ strStartsWith name "summary_part" = true :=
        h (name, payload) (List.mem_cons_self _ _)
      simp only [loadChunksAux, if_neg hn]
      exact ih (fun e he => h e (List.mem_cons_of_mem _ he))

theorem loadChunksAux_filter_pref (l : List (String × JVal)) (m : List (Int × JVal)) :
    loadChunksAux l m =
      loadChunksAux (l.filter (fun e => strStartsWith e.1 "summary_part")) m := by
  induction l generalizing m with
  | nil => rfl
  | cons e rest ih =>
      rcases e with ⟨name, payload⟩
      by_cases hp : strStartsWith name "summary_part" = true
      · have hf : ((name, payload) :: rest).filter
            (fun e => strStartsWith e.1 "summary_part") =
            (name, payload) :: rest.filter (fun e => strStartsWith e.1 "summary_part") := by
          rw [List.filter_cons, if_pos hp]
        rw [hf]
        simp only [loadChunksAux, if_pos hp]
        cases hci : chunkIndexOf payload with
        | none => rfl
        | some idx =>
            cases hco : contentOf payload with
            | none => rfl
            | some content =>
                dsimp only
                by_cases hpos : 0 < idx
                · rw [if_pos hpos, if_pos hpos, ih]
                · rw [if_neg hpos, if_neg hpos, ih]
      · have hf : ((name, payload) :: rest).filter
            (fun e => strStartsWith e.1 "summary_part") =
            rest.filter (fun e => strStartsWith e.1 "summary_part") := by
          rw [List.filter_cons, if_neg hp]
        rw [hf]
        simp only [loadChunksAux, if_neg hp]
        exact ih m

theorem chunkIndexOf_payload (c : SummaryChunk) :
    chunkIndexOf (chunkFilePayload c) = some (c.chunk_index : Int) := rfl

theorem contentOf_payload (c : SummaryChunk) :
    contentOf (chunkFilePayload c) = some c.content := rfl

theorem loadChunksAux_saved (cs : List SummaryChunk) (m : List (Int × JVal))
    (hpos : ∀ c ∈ cs, 1 ≤ c.chunk_index) :
    loadChunksAux
        (cs.map (fun c => (summary_part_name c.chunk_index, chunkFilePayload c))) m =
      some (cs.foldl (fun acc c => dictInsert acc (c.chunk_index : Int) c.content) m) := by
  induction cs generalizing m with
  | nil => rfl
  | cons c rest ih =>
      have hpref := summary_part_name_pref c.chunk_index
      have hposc : 0 < (c.chunk_index : Int) := by
        have := hpos c (List.mem_cons_self _ _)
        omega
      simp only [List.map_cons, loadChunksAux, if_pos hpref, chunkIndexOf_payload,
        contentOf_payload, if_pos hposc]
      rw [ih _ (fun c hc => hpos c (List.mem_cons_of_mem _ hc))]
      rfl

theorem dictInsert_lookup_self (m : List (Int × JVal)) (k : Int) (v : JVal) :
    (dictInsert m k v).lookup k = some v := by
  unfold dictInsert
  rw [lookup_append, lookup_filter_out]
  simp [List.lookup]

theorem dictInsert_lookup_other (m : List (Int × JVal)) (k k' : Int) (v : JVal)
    (h : k' ≠ k) :
    (dictInsert m k v).lookup k' = m.lookup k' := by
  unfold dictInsert
  rw [lookup_append, lookup_filter_other _ _ _ h]
  cases hm : m.lookup k' with
  | none =>
      have : ¬ (k' == k) = true := by simp [beq_iff_eq]; exact h
      simp [List.lookup, this]
  | some v' => rfl

theorem foldl_dictInsert_lookup_notmem (cs : List SummaryChunk) (m : List (Int × JVal))
    (k : Int) (h : ∀ c ∈ cs, (c.chunk_index : Int) ≠ k) :
    (cs.foldl (fun acc c => dictInsert acc (c.chunk_index : Int) c.content) m).lookup k =
      m.lookup k := by
  induction cs generalizing m with
  | nil => rfl
  | cons c rest ih =>
      show (rest.foldl _ (dictInsert m (c.chunk_index : Int) c.content)).lookup k = _
      rw [ih _ (fun c hc => h c (List.mem_cons_of_mem _ hc))]
      exact dictInsert_lookup_other m (c.chunk_index : Int) k c.content
        (fun hc => h c (List.mem_cons_self _ _) hc.symm)

theorem foldl_dictInsert_lookup_mem (cs : List SummaryChunk) (m : List (Int × JVal))
    (hdist : cs.Pairwise (fun a b => a.chunk_index ≠ b.chunk_index)) :
    ∀ c ∈ cs,
      (cs.foldl (fun acc c => dictInsert acc (c.chunk_index : Int) c.content) m).lookup
        (c.chunk_index : Int) = some c.content := by
  induction cs generalizing m with
  | nil => intro c hc; cases hc
  | cons a rest ih =>
      intro c hc
      rcases List.mem_cons.mp hc with h | h
      · subst h
        show (rest.foldl _ (dictInsert m (c.chunk_index : Int) c.content)).lookup _ = _
        rw [foldl_dictInsert_lookup_notmem]
        · exact dictInsert_lookup_self m _ _
        · intro c' hc' hkk
          have := (List.pairwise_cons.mp hdist).1 c' hc'
          exact this (by omega)
      · exact ih _ (List.pairwise_cons.mp hdist).2 c h

theorem save_summary_chunk_listing (fs : FS) (dataDir day : String) (c : SummaryChunk)
    (hday : c.date = day)
    (hnames : ∀ e ∈ fsInDir fs [dataDir, day, "summaries"],
      e.1 ≠ summary_part_name c.chunk_index ∧
      e.1 ≠ summary_part_name c.chunk_index ++ ".tmp") :
    fsInDir (save_summary_chunk fs dataDir c) [dataDir, day, "summaries"] =
      fsInDir fs [dataDir, day, "summaries"] ++
        [(summary_part_name c.chunk_index, chunkFilePayload c)] := by
  unfold save_summary_chunk
  rw [save_via_eq]
  have hfp : (SaveOp.summaryChunk dataDir c).finalPath =
      [dataDir, day, "summaries"] ++ [summary_part_name c.chunk_index] := by
    show summary_part_path dataDir c.date c.chunk_index = _
    rw [hday]
    rfl
  have hval : (SaveOp.summaryChunk dataDir c).value = chunkFilePayload c := rfl
  rw [hfp, hval]
  have htp : tempPath ([dataDir, day, "summaries"] ++ [summary_part_name c.chunk_index]) =
      [dataDir, day, "summaries"] ++ [summary_part_name c.chunk_index ++ ".tmp"] := rfl
  rw [htp]
  rw [fsInDir_write_in, fsInDir_remove_in]
  rw [filter_name_eq_self _ _ (fun e he => (hnames e he).2)]
  rw [filter_name_eq_self _ _ (fun e he => (hnames e he).1)]

theorem fold_save_chunks_listing (dataDir day : String) (chunks : List SummaryChunk) :
    ∀ (fs : FS),
      (∀ c ∈ chunks, c.date = day) →
      chunks.Pairwise (fun a b => a.chunk_index ≠ b.chunk_index) →
      (∀ e ∈ fsInDir fs [dataDir, day, "summaries"], ∀ c ∈ chunks,
        e.1 ≠ summary_part_name c.chunk_index ∧
        e.1 ≠ summary_part_name c.chunk_index ++ ".tmp") →
      fsInDir (chunks.foldl (fun acc c => save_summary_chunk acc dataDir c) fs)
          [dataDir, day, "summaries"] =
        fsInDir fs [dataDir, day, "summaries"] ++
          chunks.map (fun c => (summary_part_name c.chunk_index, chunkFilePayload c)) := by
  induction chunks with
  | nil => intro fs _ _ _; simp
  | cons c cs ih =>
      intro fs hday hdist hnames
      have hstep := save_summary_chunk_listing fs dataDir day c
        (hday c (List.mem_cons_self _ _))
        (fun e he => hnames e he c (List.mem_cons_self _ _))
      have hnames' : ∀ e ∈ fsInDir (save_summary_chunk fs dataDir c)
          [dataDir, day, "summaries"], ∀ c' ∈ cs,
          e.1 ≠ summary_part_name c'.chunk_index ∧
          e.1 ≠ summary_part_name c'.chunk_index ++ ".tmp" := by
        intro e he c' hc'
        rw [hstep] at he
        rcases List.mem_append.mp he with h | h
        · exact hnames e h c' (List.mem_cons_of_mem _ hc')
        · have : e = (summary_part_name c.chunk_index, chunkFilePayload c) :=
            List.mem_singleton.mp h
          rw [this]
          have hne : c.chunk_index ≠ c'.chunk_index :=
            (List.pairwise_cons.mp hdist).1 c' hc'
          constructor
          · intro hc
            exact hne (summary_part_name_inj _ _ hc)
          · exact summary_part_name_ne_tmp _ _
      show fsInDir (cs.foldl (fun acc c => save_summary_chunk acc dataDir c)
          (save_summary_chunk fs dataDir c)) [dataDir, day, "summaries"] = _
      rw [ih (save_summary_chunk fs dataDir c)
          (fun c' hc' => hday c' (List.mem_cons_of_mem _ hc'))
          (List.pairwise_cons.mp hdist).2 hnames']
      rw [hstep]
      simp [List.append_assoc]

theorem filter_pref_of_filter_name (A : List (String × JVal)) (nm : String)
    (h : strStartsWith nm "summary_part" = false) :
    (A.filter (fun e => !(e.1 == nm))).filter
        (fun e => strStartsWith e.1 "summary_part") =
      A.filter (fun e => strStartsWith e.1 "summary_part") := by
  induction A with
  | nil => rfl
  | cons a t ih =>
      by_cases hnm : a.1 = nm
      · have hb : (!(a.1 == nm)) = false := by simp [beq_iff_eq]; exact hnm
        have hpref : strStartsWith a.1 "summary_part" = false := by rw [hnm]; exact h
        rw [List.filter_cons, hb, if_neg (by simp)]
        rw [List.filter_cons, hpref, if_neg (by simp)]
        exact ih
      · have hb : (!(a.1 == nm)) = true := by simp [beq_iff_eq]; exact hnm
        rw [List.filter_cons, hb, if_pos rfl]
        by_cases hpref : strStartsWith a.1 "summary_part" = true
        · rw [List.filter_cons, hpref, if_pos rfl]
          rw [List.filter_cons, hpref, if_pos rfl, ih]
        · have hpref' : strStartsWith a.1 "summary_part" = false := by
            cases hh : strStartsWith a.1 "summary_part"
            · rfl
            · exact absurd hh hpref
          rw [List.filter_cons, hpref', if_neg (by simp)]
          rw [List.filter_cons, hpref', if_neg (by simp), ih]

theorem contentOf_isSome_of_chunkIndexOf {v : JVal} {k : Int}
    (h : chunkIndexOf v = some k) : ∃ cv, contentOf v = some cv := by
  cases v with
  | obj fields =>
      unfold contentOf
      dsimp only
      cases hl : fields.lookup "content" with
      | none => exact ⟨_, rfl⟩
      | some w => exact ⟨_, rfl⟩
  | null => exact absurd h (by simp [chunkIndexOf])
  | str s => exact absurd h (by simp [chunkIndexOf])
  | int n => exact absurd h (by simp [chunkIndexOf])

/-- C10: saving chunk summaries with distinct positive indices into a day
whose summaries partition holds no chunk files yields, on load, a chunk map
holding exactly those contents under their saved indices; saving the day's
overall summary never adds an entry to the loaded chunk map (its file name
does not carry the chunk prefix); and a stored chunk file whose payload has a
missing or non-positive integer `chunk_index` is ignored by the loader. -/
theorem claim10_chunk_store_roundtrip (dataDir day : String) (fs : FS)
    (chunks : List SummaryChunk) (ov : JVal)
    (Hday : ∀ c ∈ chunks, c.date = day)
    (Hpos : ∀ c ∈ chunks, 1 ≤ c.chunk_index)
    (Hdist : chunks.Pairwise (fun a b => a.chunk_index ≠ b.chunk_index))
    (Hclean : ∀ e ∈ fsInDir fs [dataDir, day, "summaries"],
      ¬ strStartsWith e.1 "summary_part" = true) :
    (∃ m, load_summary_chunks
          (chunks.foldl (fun acc c => save_summary_chunk acc dataDir c) fs) dataDir day =
        some m ∧
      (∀ c ∈ chunks, m.lookup (c.chunk_index : Int) = some c.content) ∧
      (∀ k : Int, (∀ c ∈ chunks, (c.chunk_index : Int) ≠ k) → m.lookup k = none) ∧
      load_summary_chunks
          (save_overall_summary
            (chunks.foldl (fun acc c => save_summary_chunk acc dataDir c) fs)
            dataDir day ov) dataDir day = some m) ∧
    (∀ (fs' : FS) (name : String) (v : JVal) (k : Int),
      strStartsWith name "summary_part" = true →
      fsFind fs' [dataDir, day, "summaries", name] = none →
      chunkIndexOf v = some k → k ≤ 0 →
      load_summary_chunks (fsWrite fs' [dataDir, day, "summaries", name] v) dataDir day =
        load_summary_chunks fs' dataDir day) := by
  constructor
  · have hnames₀ : ∀ e ∈ fsInDir fs [dataDir, day, "summaries"], ∀ c ∈ chunks,
        e.1 ≠ summary_part_name c.chunk_index ∧
        e.1 ≠ summary_part_name c.chunk_index ++ ".tmp" := by
      intro e he c _
      constructor
      · intro hcname
        apply Hclean e he
        rw [hcname]
        exact summary_part_name_pref _
      · intro hcname
        apply Hclean e he
        rw [hcname]
        exact summary_part_tmp_pref _
    have hlist := fold_save_chunks_listing dataDir day chunks fs Hday Hdist hnames₀
    have h1 : load_summary_chunks
        (chunks.foldl (fun acc c => save_summary_chunk acc dataDir c) fs) dataDir day =
        some (chunks.foldl
          (fun acc c => dictInsert acc (c.chunk_index : Int) c.content) []) := by
      unfold load_summary_chunks
      rw [hlist, loadChunksAux_append, loadChunksAux_skip _ _ Hclean]
      exact loadChunksAux_saved chunks [] Hpos
    refine ⟨chunks.foldl (fun acc c => dictInsert acc (c.chunk_index : Int) c.content) [],
      h1, ?_, ?_, ?_⟩
    · exact foldl_dictInsert_lookup_mem chunks [] Hdist
    · intro k hk
      rw [foldl_dictInsert_lookup_notmem chunks [] k hk]
      rfl
    · unfold save_overall_summary
      rw [save_via_eq]
      have hfp : (SaveOp.overallSummary dataDir day ov).finalPath =
          [dataDir, day, "summaries"] ++ ["summary_overall.json"] := rfl
      have htp : tempPath ([dataDir, day, "summaries"] ++ ["summary_overall.json"]) =
          [dataDir, day, "summaries"] ++ ["summary_overall.json" ++ ".tmp"] := rfl
      rw [hfp, htp]
      unfold load_summary_chunks
      rw [fsInDir_write_in, fsInDir_remove_in]
      rw [loadChunksAux_filter_pref, List.filter_append]
      have hov : strStartsWith "summary_overall.json" "summary_part" = false := by decide
      have hovt : strStartsWith ("summary_overall.json" ++ ".tmp") "summary_part" = false := by
        decide
      have hsingle : ([("summary_overall.json", (SaveOp.overallSummary dataDir day ov).value)]
          : List (String × JVal)).filter (fun e => strStartsWith e.1 "summary_part") = [] := by
        simp [List.filter_cons, hov]
      rw [hsingle, filter_pref_of_filter_name _ _ hov, filter_pref_of_filter_name _ _ hovt]
      rw [List.append_nil, ← loadChunksAux_filter_pref]
      unfold load_summary_chunks at h1
      exact h1
  · intro fs' name v k hpref hfresh hk hk0
    have hpath : ([dataDir, day, "summaries", name] : FPath) =
        [dataDir, day, "summaries"] ++ [name] := rfl
    have hentries : ∀ e ∈ fsInDir fs' [dataDir, day, "summaries"], e.1 ≠ name := by
      intro e he hc
      have hmem := mem_fsInDir_path fs' _ e he
      have hall := lookup_none_forall fs' _ hfresh _ hmem
      apply hall
      show [dataDir, day, "summaries"] ++ [e.1] = [dataDir, day, "summaries", name]
      rw [hc]
      rfl
    unfold load_summary_chunks
    rw [hpath, fsInDir_write_in, filter_name_eq_self _ _ hentries, loadChunksAux_append]
    cases hload : loadChunksAux (fsInDir fs' [dataDir, day, "summaries"]) [] with
    | none => rfl
    | some m' =>
        obtain ⟨cv, hcv⟩ := contentOf_isSome_of_chunkIndexOf hk
        simp only [loadChunksAux, if_pos hpref, hk, hcv]
        rw [if_neg (by omega : ¬ (0 : Int) < k)]

theorem claim10_witness :
    ∃ m, load_summary_chunks
        (List.foldl (fun acc c => save_summary_chunk acc "data" c) []
          [⟨"2024-01-05", 1, JVal.null⟩]) "data" "2024-01-05" = some m ∧
      m.lookup 1 = some JVal.null := by
  obtain ⟨⟨m, h1, h2, _, _⟩, _⟩ := claim10_chunk_store_roundtrip "data" "2024-01-05" []
    [⟨"2024-01-05", 1, JVal.null⟩] JVal.null
    (by intro c hc; rw [List.mem_singleton] at hc; subst hc; rfl)
    (by intro c hc; rw [List.mem_singleton] at hc; subst hc; decide)
    (List.pairwise_singleton _ _)
    (by intro e he; simp [fsInDir] at he)
  exact ⟨m, h1, h2 ⟨"2024-01-05", 1, JVal.null⟩ (List.mem_singleton.mpr rfl)⟩

/-- Does a ten-character list have the shape `\d{4}-\d{2}-\d{2}`? -/
def isDateShape : List Char → Bool
  | [a, b, c, d, e, f, g, h, i, j] =>
      a.isDigit && b.isDigit && c.isDigit && d.isDigit && (e == '-') &&
        f.isDigit && g.isDigit && (h == '-') && i.isDigit && j.isDigit
  | _ => false

/-- Scan for the leftmost position whose next ten characters match the
legacy date pattern. -/
def findDateTokenAux : List Char → Option (List Char)
  | [] => none
  | c :: rest =>
      if isDateShape ((c :: rest).take 10) then some ((c :: rest).take 10)
      else findDateTokenAux rest

/-- Model of `LEGACY_DATE_PATTERN.search(name)` (the pattern is fixed-width,
so the leftmost match is the leftmost ten-character window of date shape). -/
def findDateToken (s : String) : Option String :=
  (findDateTokenAux s.data).map (fun cs => String.mk cs)

/-- Numeric value of a digit-character list (most significant first). -/
def digitsVal (cs : List Char) : Nat :=
  cs.foldl (fun a c => a * 10 + (c.toNat - 48)) 0

/-- Days per month, with the Gregorian leap rule (`datetime.date` validation). -/
def daysInMonth (y m : Nat) : Nat :=
  if m = 2 then
    if y % 4 = 0 && (decide (y % 100 ≠ 0) || y % 400 = 0) then 29 else 28
  else if m = 4 || m = 6 || m = 9 || m = 11 then 30
  else 31

/-- Does a date-shaped token denote a valid calendar date, i.e. does
`date.fromisoformat` succeed on it?  (On success, `strftime("%Y-%m-%d")` of
the parsed date reproduces the zero-padded token itself.) -/
def isValidDate (token : String) : Bool :=
  match token.data with
  | [a, b, c, d, _, e, f, _, g, h] =>
      let y := digitsVal [a, b, c, d]
      let m := digitsVal [e, f]
      let dd := digitsVal [g, h]
      decide (1 ≤ y) && decide (1 ≤ m) && decide (m ≤ 12) && decide (1 ≤ dd) &&
        decide (dd ≤ daysInMonth y m)
  | _ => false

/-- Model of `re.search(r"part(\d+)", name)`: the maximal digit run after the
leftmost occurrence of `"part"` that is followed by at least one digit. -/
def findPartAux : List Char → Option Nat
  | 'p' :: 'a' :: 'r' :: 't' :: tl =>
      if (tl.takeWhile Char.isDigit).isEmpty then findPartAux ('a' :: 'r' :: 't' :: tl)
      else some (digitsVal (tl.takeWhile Char.isDigit))
  | _ :: rest => findPartAux rest
  | [] => none
termination_by l => l.length

def findPart (s : String) : Option Nat :=
  findPartAux s.data

/-- Substring containment on character lists (Python `sub in s`). -/
def listContains (needle : List Char) : List Char → Bool
  | [] => needle.isPrefixOf []
  | c :: t => needle.isPrefixOf (c :: t) || listContains needle t

/-- Python `sub in s`. -/
def strContains (s sub : String) : Bool :=
  listContains sub.data s.data

/-- Python `str.endswith`. -/
def strEndsWith (s post : String) : Bool :=
  post.data.isSuffixOf s.data

/-- `fnmatch` of a file name against the glob `papers_*.jsonl`. -/
def globPapersJsonl (name : String) : Bool :=
  strStartsWith name "papers_" && strEndsWith name ".jsonl" &&
    decide (13 ≤ name.data.length)

/-- `pathlib.PurePath.suffix` of a file name: the part from the last dot,
provided that dot is neither leading nor trailing. -/
def pathSuffix (name : String) : String :=
  match name.data.reverse.findIdx? (fun c => c == '.') with
  | none => ""
  | some rj =>
      if 0 < name.data.length - 1 - rj ∧ name.data.length - 1 - rj < name.data.length - 1
      then String.mk (name.data.drop (name.data.length - 1 - rj))
      else ""

/-- Outcome of examining one legacy flat-layout file name: raise (invalid
embedded date), skip it, or move it to a day-partitioned target. -/
inductive MigDecision where
  | crash : MigDecision
  | skip : MigDecision
  | moveTo : FPath → MigDecision

/-- The `raw` section of `storage.migrate_legacy_data`: files matching the
glob `papers_*.jsonl` whose name embeds a date token move to the day's raw
snapshot path. -/
def rawDecision (base name : String) : MigDecision :=
  if globPapersJsonl name then
    match findDateToken name with
    | none => MigDecision.skip
    | some tok =>
        if isValidDate tok then MigDecision.moveTo [base, tok, "raw", "papers.jsonl"]
        else MigDecision.crash
  else MigDecision.skip

/-- The `summaries` section of `storage.migrate_legacy_data`. -/
def summariesDecision (base name : String) : MigDecision :=
  if strStartsWith name "summary_" && (pathSuffix name == ".json") then
    match findDateToken name with
    | none => MigDecision.skip
    | some tok =>
        if isValidDate tok then
          if strContains name "overall" then
            MigDecision.moveTo [base, tok, "summaries", "summary_overall.json"]
          else
            match findPart name with
            | none => MigDecision.skip
            | some part =>
                MigDecision.moveTo [base, tok, "summaries", summary_part_name part]
        else MigDecision.crash
  else MigDecision.skip

/-- The `responses` section of `storage.migrate_legacy_data`. -/
def responsesDecision (base name : String) : MigDecision :=
  if strStartsWith name "response_" then
    match findDateToken name with
    | none => MigDecision.skip
    | some tok =>
        if isValidDate tok then
          if strContains name "overall" then
            MigDecision.moveTo [base, tok, "responses", "response_overall.txt"]
          else
            match findPart name with
            | none => MigDecision.skip
            | some part =>
                MigDecision.moveTo
                  [base, tok, "responses", "response_part" ++ pad2 part ++ ".txt"]
        else MigDecision.crash
  else MigDecision.skip

/-- The `prompts` section of `storage.migrate_legacy_data`. -/
def promptsDecision (base name : String) : MigDecision :=
  if strStartsWith name "prompt_" then
    match findDateToken name with
    | none => MigDecision.skip
    | some tok =>
        if isValidDate tok then
          match findPart name with
          | none => MigDecision.skip
          | some part =>
              MigDecision.moveTo
                [base, tok, "prompts", "prompt_part" ++ pad2 part ++ ".txt"]
        else MigDecision.crash
  else MigDecision.skip

/-- One migration section: walk the flat directory's listing in order; a
crash aborts, a move is performed only when the target does not exist, and
each move is recorded in order.  `none` models the uncaught `ValueError`. -/
def runSectionAux (dir : FPath) (dec : String → MigDecision) :
    List (String × JVal) → FS → List (FPath × FPath) → Option (FS × List (FPath × FPath))
  | [], fs, moved => some (fs, moved)
  | (name, _) :: rest, fs, moved =>
      match dec name with
      | MigDecision.crash => none
      | MigDecision.skip => runSectionAux dir dec rest fs moved
      | MigDecision.moveTo tgt =>
          if (fsFind fs tgt).isSome then runSectionAux dir dec rest fs moved
          else
            runSectionAux dir dec rest (fsRename fs (dir ++ [name]) tgt)
              (moved ++ [(dir ++ [name], tgt)])

/-- Run one migration section over a flat category directory. -/
def runSection (fs : FS) (base flatCat : String) (dec : String → MigDecision) :
    Option (FS × List (FPath × FPath)) :=
  runSectionAux [base, flatCat] dec (fsInDir fs [base, flatCat]) fs []

/-- Model of `storage.migrate_legacy_data`: the four sections in source
order, threading the file system and concatenating the moved list. -/
def migrate_legacy_data (base : String) (fs : FS) :
    Option (FS × List (FPath × FPath)) :=
  match runSection fs base "raw" (rawDecision base) with
  | none => none
  | some (fs1, m1) =>
      match runSection fs1 base "summaries" (summariesDecision base) with
      | none => none
      | some (fs2, m2) =>
          match runSection fs2 base "responses" (responsesDecision base) with
          | none => none
          | some (fs3, m3) =>
              match runSection fs3 base "prompts" (promptsDecision base) with
              | none => none
              | some (fs4, m4) => some (fs4, m1 ++ m2 ++ m3 ++ m4)

theorem find_rename_preserved (fs : FS) (src tgt p : FPath) (hps : p ≠ src)
    (hpt : p ≠ tgt) :
    fsFind (fsRename fs src tgt) p = fsFind fs p := by
  unfold fsRename
  cases hsrc : fsFind fs src with
  | none => rfl
  | some v => exact (find_write_other _ _ _ _ hpt).trans (find_remove_other _ _ _ hps)

theorem find_none_rename_back (fs : FS) (src tgt p : FPath) (hps : p ≠ src)
    (h : fsFind (fsRename fs src tgt) p = none) : fsFind fs p = none := by
  unfold fsRename at h
  cases hsrc : fsFind fs src with
  | none => rw [hsrc] at h; exact h
  | some v =>
      rw [hsrc] at h
      by_cases hpt : p = tgt
      · rw [hpt, find_write_self] at h
        exact absurd h (by simp)
      · rw [find_write_other _ _ _ _ hpt, find_remove_other _ _ _ hps] at h
        exact h

theorem inDir_rename_out (fs : FS) (src tgt dir : FPath)
    (hs : ∀ nm, src ≠ dir ++ [nm]) (ht : ∀ nm, tgt ≠ dir ++ [nm]) :
    fsInDir (fsRename fs src tgt) dir = fsInDir fs dir := by
  unfold fsRename
  cases hsrc : fsFind fs src with
  | none => rfl
  | some v =>
      dsimp only
      rw [fsInDir_write_out _ _ _ _ ht, fsInDir_remove_out _ _ _ hs]

theorem inDir_rename_src (fs : FS) (dir : FPath) (name : String) (tgt : FPath)
    (htgt : ∀ nm, tgt ≠ dir ++ [nm]) :
    fsInDir (fsRename fs (dir ++ [name]) tgt) dir =
      match fsFind fs (dir ++ [name]) with
      | none => fsInDir fs dir
      | some _ => (fsInDir fs dir).filter (fun e => !(e.1 == name)) := by
  unfold fsRename
  cases h : fsFind fs (dir ++ [name]) with
  | none => rfl
  | some v =>
      dsimp only
      rw [fsInDir_write_out _ _ _ _ htgt, fsInDir_remove_in]

theorem rawDecision_moveTo (base name : String) (t : FPath)
    (h : rawDecision base name = MigDecision.moveTo t) : t.length = 4 := by
  unfold rawDecision at h
  split at h
  · split at h
    next => exact absurd h (by simp)
    next tok =>
      split at h
      · injection h with h'
        rw [← h']
        rfl
      · exact absurd h (by simp)
  · exact absurd h (by simp)

theorem summariesDecision_moveTo (base name : String) (t : FPath)
    (h : summariesDecision base name = MigDecision.moveTo t) : t.length = 4 := by
  unfold summariesDecision at h
  split at h
  · split at h
    next => exact absurd h (by simp)
    next tok =>
      split at h
      · split at h
        · injection h with h'
          rw [← h']
          rfl
        · split at h
          next => exact absurd h (by simp)
          next part =>
            injection h with h'
            rw [← h']
            rfl
      · exact absurd h (by simp)
  · exact absurd h (by simp)

theorem responsesDecision_moveTo (base name : String) (t : FPath)
    (h : responsesDecision base name = MigDecision.moveTo t) : t.length = 4 := by
  unfold responsesDecision at h
  split at h
  · split at h
    next => exact absurd h (by simp)
    next tok =>
      split at h
      · split at h
        · injection h with h'
          rw [← h']
          rfl
        · split at h
          next => exact absurd h (by simp)
          next part =>
            injection h with h'
            rw [← h']
            rfl
      · exact absurd h (by simp)
  · exact absurd h (by simp)

theorem promptsDecision_moveTo (base name : String) (t : FPath)
    (h : promptsDecision base name = MigDecision.moveTo t) : t.length = 4 := by
  unfold promptsDecision at h
  split at h
  · split at h
    next => exact absurd h (by simp)
    next tok =>
      split at h
      · split at h
        next => exact absurd h (by simp)
        next part =>
          injection h with h'
          rw [← h']
          rfl
      · exact absurd h (by simp)
  · exact absurd h (by simp)

/-- A flat file already handled: it is skipped, or its target exists. -/
def DoneEntry (fs : FS) (dec : String → MigDecision) (name : String) : Prop :=
  dec name = MigDecision.skip ∨
    ∃ t, dec name = MigDecision.moveTo t ∧ (fsFind fs t).isSome = true

/-- Every file in the flat directory is already handled. -/
def SectionDone (fs : FS) (dir : FPath) (dec : String → MigDecision) : Prop :=
  ∀ e ∈ fsInDir fs dir, DoneEntry fs dec e.1

theorem runSectionAux_moved (dir : FPath) (dec : String → MigDecision)
    (Hdir : dir.length = 2)
    (Hdec4 : ∀ name t, dec name = MigDecision.moveTo t → t.length = 4) :
    ∀ (entries : List (String × JVal)) (fs : FS) (moved : List (FPath × FPath))
      (fs' : FS) (mv : List (FPath × FPath)),
      runSectionAux dir dec entries fs moved = some (fs', mv) →
      ∀ st ∈ mv, st ∈ moved ∨ (st.2.length = 4 ∧ fsFind fs st.2 = none) := by
  intro entries
  induction entries with
  | nil =>
      intro fs moved fs' mv h st hst
      simp only [runSectionAux, Option.some.injEq, Prod.mk.injEq] at h
      rw [← h.2] at hst
      exact Or.inl hst
  | cons e rest ih =>
      rcases e with ⟨name, pv⟩
      intro fs moved fs' mv h st hst
      simp only [runSectionAux] at h
      cases hdec : dec name with
      | crash => rw [hdec] at h; exact absurd h (by simp)
      | skip =>
          rw [hdec] at h
          exact ih fs moved fs' mv h st hst
      | moveTo tgt =>
          rw [hdec] at h
          dsimp only at h
          by_cases hex : (fsFind fs tgt).isSome = true
          · rw [if_pos hex] at h
            exact ih fs moved fs' mv h st hst
          · rw [if_neg hex] at h
            have hnone : fsFind fs tgt = none := by
              cases hf : fsFind fs tgt
              · rfl
              · rw [hf] at hex; exact absurd rfl hex
            rcases ih _ _ _ _ h st hst with hmem | ⟨hlen, hfind⟩
            · rcases List.mem_append.mp hmem with h' | h'
              · exact Or.inl h'
              · have : st = (dir ++ [name], tgt) := List.mem_singleton.mp h'
                right
                rw [this]
                exact ⟨Hdec4 name tgt hdec, hnone⟩
            · right
              refine ⟨hlen, ?_⟩
              apply find_none_rename_back fs (dir ++ [name]) tgt st.2 ?_ hfind
              intro hc
              have := congrArg List.length hc
              rw [hlen, List.length_append, Hdir] at this
              simp at this

theorem runSectionAux_preserves (dir : FPath) (dec : String → MigDecision)
    (Hdir : dir.length = 2) :
    ∀ (entries : List (String × JVal)) (fs : FS) (moved : List (FPath × FPath))
      (fs' : FS) (mv : List (FPath × FPath)),
      runSectionAux dir dec entries fs moved = some (fs', mv) →
      ∀ (p : FPath) (v : JVal), 4 ≤ p.length → fsFind fs p = some v →
        fsFind fs' p = some v := by
  intro entries
  induction entries with
  | nil =>
      intro fs moved fs' mv h p v _ hfind
      simp only [runSectionAux, Option.some.injEq, Prod.mk.injEq] at h
      rw [← h.1]
      exact hfind
  | cons e rest ih =>
      rcases e with ⟨name, pv⟩
      intro fs moved fs' mv h p v hlen hfind
      simp only [runSectionAux] at h
      cases hdec : dec name with
      | crash => rw [hdec] at h; exact absurd h (by simp)
      | skip =>
          rw [hdec] at h
          exact ih fs moved fs' mv h p v hlen hfind
      | moveTo tgt =>
          rw [hdec] at h
          dsimp only at h
          by_cases hex : (fsFind fs tgt).isSome = true
          · rw [if_pos hex] at h
            exact ih fs moved fs' mv h p v hlen hfind
          · rw [if_neg hex] at h
            have hps : p ≠ dir ++ [name] := by
              intro hc
              have := congrArg List.length hc
              rw [List.length_append, Hdir] at this
              simp at this
              omega
            have hpt : p ≠ tgt := by
              intro hc
              rw [← hc, hfind] at hex
              exact hex rfl
            refine ih _ _ _ _ h p v hlen ?_
            rw [find_rename_preserved fs (dir ++ [name]) tgt p hps hpt]
            exact hfind

theorem runSectionAux_other_dir (dir : FPath) (dec : String → MigDecision)
    (Hdir : dir.length = 2)
    (Hdec4 : ∀ name t, dec name = MigDecision.moveTo t → t.length = 4) :
    ∀ (entries : List (String × JVal)) (fs : FS) (moved : List (FPath × FPath))
      (fs' : FS) (mv : List (FPath × FPath)),
      runSectionAux dir dec entries fs moved = some (fs', mv) →
      ∀ dir2 : FPath, dir2.length = 2 → dir2 ≠ dir →
        fsInDir fs' dir2 = fsInDir fs dir2 := by
  intro entries
  induction entries with
  | nil =>
      intro fs moved fs' mv h dir2 _ _
      simp only [runSectionAux, Option.some.injEq, Prod.mk.injEq] at h
      rw [← h.1]
  | cons e rest ih =>
      rcases e with ⟨name, pv⟩
      intro fs moved fs' mv h dir2 hdir2 hne
      simp only [runSectionAux] at h
      cases hdec : dec name with
      | crash => rw [hdec] at h; exact absurd h (by simp)
      | skip =>
          rw [hdec] at h
          exact ih fs moved fs' mv h dir2 hdir2 hne
      | moveTo tgt =>
          rw [hdec] at h
          dsimp only at h
          by_cases hex : (fsFind fs tgt).isSome = true
          · rw [if_pos hex] at h
            exact ih fs moved fs' mv h dir2 hdir2 hne
          · rw [if_neg hex] at h
            rw [ih _ _ _ _ h dir2 hdir2 hne]
            apply inDir_rename_out
            · intro nm hc
              have hlen := congrArg List.length hc
              rw [List.length_append, List.length_append, Hdir, hdir2] at hlen
              have heads := List.append_inj hc (by rw [Hdir, hdir2])
              exact hne heads.1.symm
            · intro nm hc
              have hlen := congrArg List.length hc
              rw [Hdec4 name tgt hdec] at hlen
              rw [List.length_append, hdir2] at hlen
              simp at hlen

theorem DoneEntry_rename (fs : FS) (dec : String → MigDecision) (nm : String)
    (src tgt : FPath) (hsrc3 : src.length = 3)
    (Hdec4 : ∀ name t, dec name = MigDecision.moveTo t → t.length = 4)
    (htgt : fsFind fs tgt = none)
    (h : DoneEntry fs dec nm) : DoneEntry (fsRename fs src tgt) dec nm := by
  rcases h with h | ⟨t, hdec, hsome⟩
  · exact Or.inl h
  · right
    refine ⟨t, hdec, ?_⟩
    have hts : t ≠ src := by
      intro hc
      have := congrArg List.length hc
      rw [Hdec4 nm t hdec, hsrc3] at this
      omega
    have htt : t ≠ tgt := by
      intro hc
      rw [hc, htgt] at hsome
      exact absurd hsome (by simp)
    rw [find_rename_preserved fs src tgt t hts htt]
    exact hsome

theorem runSectionAux_done (dir : FPath) (dec : String → MigDecision)
    (Hdir : dir.length = 2)
    (Hdec4 : ∀ name t, dec name = MigDecision.moveTo t → t.length = 4) :
    ∀ (entries : List (String × JVal)) (fs : FS) (moved : List (FPath × FPath))
      (fs' : FS) (mv : List (FPath × FPath)),
      runSectionAux dir dec entries fs moved = some (fs', mv) →
      (∀ e ∈ fsInDir fs dir, e.1 ∈ entries.map Prod.fst ∨ DoneEntry fs dec e.1) →
      SectionDone fs' dir dec := by
  intro entries
  induction entries with
  | nil =>
      intro fs moved fs' mv h hcover
      simp only [runSectionAux, Option.some.injEq, Prod.mk.injEq] at h
      rw [← h.1]
      intro e he
      rcases hcover e he with h' | h'
      · simp at h'
      · exact h'
  | cons e₀ rest ih =>
      rcases e₀ with ⟨name, pv⟩
      intro fs moved fs' mv h hcover
      simp only [runSectionAux] at h
      cases hdec : dec name with
      | crash => rw [hdec] at h; exact absurd h (by simp)
      | skip =>
          rw [hdec] at h
          refine ih fs moved fs' mv h ?_
          intro e he
          rcases hcover e he with h' | h'
          · rcases List.mem_cons.mp h' with h'' | h''
            · exact Or.inr (Or.inl (h'' ▸ hdec))
            · exact Or.inl h''
          · exact Or.inr h'
      | moveTo tgt =>
          rw [hdec] at h
          dsimp only at h
          by_cases hex : (fsFind fs tgt).isSome = true
          · rw [if_pos hex] at h
            refine ih fs moved fs' mv h ?_
            intro e he
            rcases hcover e he with h' | h'
            · rcases List.mem_cons.mp h' with h'' | h''
              · exact Or.inr (Or.inr ⟨tgt, h'' ▸ hdec, hex⟩)
              · exact Or.inl h''
            · exact Or.inr h'
          · rw [if_neg hex] at h
            have hnone : fsFind fs tgt = none := by
              cases hf : fsFind fs tgt
              · rfl
              · rw [hf] at hex; exact absurd rfl hex
            have htgt_not : ∀ nm, tgt ≠ dir ++ [nm] := by
              intro nm hc
              have := congrArg List.length hc
              rw [Hdec4 name tgt hdec, List.length_append, Hdir] at this
              simp at this
            refine ih _ _ _ _ h ?_
            intro e he
            rw [inDir_rename_src fs dir name tgt htgt_not] at he
            cases hfs : fsFind fs (dir ++ [name]) with
            | none =>
                rw [hfs] at he
                dsimp only at he
                rcases hcover e he with h' | h'
                · rcases List.mem_cons.mp h' with h'' | h''
                  · exfalso
                    have hmem := mem_fsInDir_path fs dir e he
                    have := lookup_none_forall fs (dir ++ [name]) hfs _ hmem
                    apply this
                    show dir ++ [e.1] = dir ++ [name]
                    rw [h'']
                  · exact Or.inl h''
                · exact Or.inr (DoneEntry_rename fs dec e.1 (dir ++ [name]) tgt
                    (by rw [List.length_append, Hdir]; rfl) Hdec4 hnone h')
            | some v =>
                rw [hfs] at he
                dsimp only at he
                have hmf := List.mem_filter.mp he
                have hne : e.1 ≠ name := by
                  have := hmf.2
                  simp [beq_iff_eq] at this
                  exact this
                rcases hcover e hmf.1 with h' | h'
                · rcases List.mem_cons.mp h' with h'' | h''
                  · exact absurd h'' hne
                  · exact Or.inl h''
                · exact Or.inr (DoneEntry_rename fs dec e.1 (dir ++ [name]) tgt
                    (by rw [List.length_append, Hdir]; rfl) Hdec4 hnone h')

theorem runSectionAux_noop (dir : FPath) (dec : String → MigDecision) :
    ∀ (entries : List (String × JVal)) (fs : FS) (moved : List (FPath × FPath)),
      (∀ e ∈ entries, DoneEntry fs dec e.1) →
      runSectionAux dir dec entries fs moved = some (fs, moved) := by
  intro entries
  induction entries with
  | nil => intro fs moved _; rfl
  | cons e₀ rest ih =>
      rcases e₀ with ⟨name, pv⟩
      intro fs moved hdone
      rcases hdone (name, pv) (List.mem_cons_self _ _) with h | ⟨t, hdec, hsome⟩
      · simp only [runSectionAux, h]
        exact ih fs moved (fun e he => hdone e (List.mem_cons_of_mem _ he))
      · simp only [runSectionAux, hdec, if_pos hsome]
        exact ih fs moved (fun e he => hdone e (List.mem_cons_of_mem _ he))

theorem SectionDone_transfer (dir : FPath) (dec : String → MigDecision)
    (dir2 : FPath) (dec2 : String → MigDecision) {entries : List (String × JVal)}
    {fs : FS} {moved : List (FPath × FPath)} {fs' : FS} {mv : List (FPath × FPath)}
    (Hdir : dir.length = 2) (Hdir2 : dir2.length = 2) (hne : dir ≠ dir2)
    (Hdec4 : ∀ name t, dec name = MigDecision.moveTo t → t.length = 4)
    (Hdec4' : ∀ name t, dec2 name = MigDecision.moveTo t → t.length = 4)
    (hrun : runSectionAux dir2 dec2 entries fs moved = some (fs', mv))
    (hdone : SectionDone fs dir dec) : SectionDone fs' dir dec := by
  intro e he
  rw [runSectionAux_other_dir dir2 dec2 Hdir2 Hdec4' entries fs moved fs' mv hrun
    dir Hdir hne] at he
  rcases hdone e he with h | ⟨t, hdec, hsome⟩
  · exact Or.inl h
  · right
    refine ⟨t, hdec, ?_⟩
    rcases Option.isSome_iff_exists.mp hsome with ⟨v, hv⟩
    rw [runSectionAux_preserves dir2 dec2 Hdir2 entries fs moved fs' mv hrun t v
      (by rw [Hdec4 _ _ hdec]) hv]
    rfl

theorem find_none_back_section (dir : FPath) (dec : String → MigDecision)
    {entries : List (String × JVal)} {fs : FS} {moved : List (FPath × FPath)}
    {fs' : FS} {mv : List (FPath × FPath)} (Hdir : dir.length = 2)
    (hrun : runSectionAux dir dec entries fs moved = some (fs', mv))
    (p : FPath) (hlen : 4 ≤ p.length) (hnone : fsFind fs' p = none) :
    fsFind fs p = none := by
  cases hfa : fsFind fs p with
  | none => rfl
  | some v =>
      rw [runSectionAux_preserves dir dec Hdir entries fs moved fs' mv hrun p v
        hlen hfa] at hnone
      exact absurd hnone (by simp)

/-- C9: whenever the legacy migration completes, every move it performed had
an absent destination on the starting disk state, and a second invocation on
the resulting disk state moves nothing. -/
theorem claim9_migration_idempotent (base : String) (fs fs' : FS)
    (mv : List (FPath × FPath))
    (h : migrate_legacy_data base fs = some (fs', mv)) :
    (∀ st ∈ mv, fsFind fs st.2 = none) ∧
    migrate_legacy_data base fs' = some (fs', []) := by
  unfold migrate_legacy_data at h
  cases h1 : runSection fs base "raw" (rawDecision base) with
  | none => rw [h1] at h; exact absurd h (by simp)
  | some r1 =>
  rcases r1 with ⟨fs1, m1⟩
  rw [h1] at h
  dsimp only at h
  cases h2 : runSection fs1 base "summaries" (summariesDecision base) with
  | none => rw [h2] at h; exact absurd h (by simp)
  | some r2 =>
  rcases r2 with ⟨fs2, m2⟩
  rw [h2] at h
  dsimp only at h
  cases h3 : runSection fs2 base "responses" (responsesDecision base) with
  | none => rw [h3] at h; exact absurd h (by simp)
  | some r3 =>
  rcases r3 with ⟨fs3, m3⟩
  rw [h3] at h
  dsimp only at h
  cases h4 : runSection fs3 base "prompts" (promptsDecision base) with
  | none => rw [h4] at h; exact absurd h (by simp)
  | some r4 =>
  rcases r4 with ⟨fs4, m4⟩
  rw [h4] at h
  dsimp only at h
  simp only [Option.some.injEq, Prod.mk.injEq] at h
  obtain ⟨hfs', hmv⟩ := h
  subst hfs'
  subst hmv
  have hr1 : runSectionAux [base, "raw"] (rawDecision base)
      (fsInDir fs [base, "raw"]) fs [] = some (fs1, m1) := h1
  have hr2 : runSectionAux [base, "summaries"] (summariesDecision base)
      (fsInDir fs1 [base, "summaries"]) fs1 [] = some (fs2, m2) := h2
  have hr3 : runSectionAux [base, "responses"] (responsesDecision base)
      (fsInDir fs2 [base, "responses"]) fs2 [] = some (fs3, m3) := h3
  have hr4 : runSectionAux [base, "prompts"] (promptsDecision base)
      (fsInDir fs3 [base, "prompts"]) fs3 [] = some (fs4, m4) := h4
  have hd1 : ∀ name t, rawDecision base name = MigDecision.moveTo t → t.length = 4 :=
    fun name t => rawDecision_moveTo base name t
  have hd2 : ∀ name t, summariesDecision base name = MigDecision.moveTo t →
      t.length = 4 := fun name t => summariesDecision_moveTo base name t
  have hd3 : ∀ name t, responsesDecision base name = MigDecision.moveTo t →
      t.length = 4 := fun name t => responsesDecision_moveTo base name t
  have hd4 : ∀ name t, promptsDecision base name = MigDecision.moveTo t →
      t.length = 4 := fun name t => promptsDecision_moveTo base name t
  constructor
  · intro st hst
    rcases List.mem_append.mp hst with hst' | hst4
    · rcases List.mem_append.mp hst' with hst'' | hst3
      · rcases List.mem_append.mp hst'' with hst1 | hst2
        · rcases runSectionAux_moved [base, "raw"] (rawDecision base) rfl hd1 _ _ _ _ _ hr1 st hst1 with hm | hm
          · cases hm
          · exact hm.2
        · rcases runSectionAux_moved [base, "summaries"] (summariesDecision base) rfl hd2 _ _ _ _ _ hr2 st hst2 with hm | hm
          · cases hm
          · exact find_none_back_section [base, "raw"] (rawDecision base) rfl hr1 st.2 (by rw [hm.1]) hm.2
      · rcases runSectionAux_moved [base, "responses"] (responsesDecision base) rfl hd3 _ _ _ _ _ hr3 st hst3 with hm | hm
        · cases hm
        · exact find_none_back_section [base, "raw"] (rawDecision base) rfl hr1 st.2 (by rw [hm.1])
            (find_none_back_section [base, "summaries"] (summariesDecision base) rfl hr2 st.2 (by rw [hm.1]) hm.2)
    · rcases runSectionAux_moved [base, "prompts"] (promptsDecision base) rfl hd4 _ _ _ _ _ hr4 st hst4 with hm | hm
      · cases hm
      · exact find_none_back_section [base, "raw"] (rawDecision base) rfl hr1 st.2 (by rw [hm.1])
          (find_none_back_section [base, "summaries"] (summariesDecision base) rfl hr2 st.2 (by rw [hm.1])
            (find_none_back_section [base, "responses"] (responsesDecision base) rfl hr3 st.2 (by rw [hm.1]) hm.2))
  · have hne12 : ([base, "raw"] : FPath) ≠ [base, "summaries"] := by
      intro hc
      rw [List.cons.injEq, List.cons.injEq] at hc
      exact absurd hc.2.1 (by decide)
    have hne13 : ([base, "raw"] : FPath) ≠ [base, "responses"] := by
      intro hc
      rw [List.cons.injEq, List.cons.injEq] at hc
      exact absurd hc.2.1 (by decide)
    have hne14 : ([base, "raw"] : FPath) ≠ [base, "prompts"] := by
      intro hc
      rw [List.cons.injEq, List.cons.injEq] at hc
      exact absurd hc.2.1 (by decide)
    have hne23 : ([base, "summaries"] : FPath) ≠ [base, "responses"] := by
      intro hc
      rw [List.cons.injEq, List.cons.injEq] at hc
      exact absurd hc.2.1 (by decide)
    have hne24 : ([base, "summaries"] : FPath) ≠ [base, "prompts"] := by
      intro hc
      rw [List.cons.injEq, List.cons.injEq] at hc
      exact absurd hc.2.1 (by decide)
    have hne34 : ([base, "responses"] : FPath) ≠ [base, "prompts"] := by
      intro hc
      rw [List.cons.injEq, List.cons.injEq] at hc
      exact absurd hc.2.1 (by decide)
    have hcov1 : ∀ e ∈ fsInDir fs [base, "raw"],
        e.1 ∈ (fsInDir fs [base, "raw"]).map Prod.fst ∨
          DoneEntry fs (rawDecision base) e.1 :=
      fun e he => Or.inl (List.mem_map.mpr ⟨e, he, rfl⟩)
    have hcov2 : ∀ e ∈ fsInDir fs1 [base, "summaries"],
        e.1 ∈ (fsInDir fs1 [base, "summaries"]).map Prod.fst ∨
          DoneEntry fs1 (summariesDecision base) e.1 :=
      fun e he => Or.inl (List.mem_map.mpr ⟨e, he, rfl⟩)
    have hcov3 : ∀ e ∈ fsInDir fs2 [base, "responses"],
        e.1 ∈ (fsInDir fs2 [base, "responses"]).map Prod.fst ∨
          DoneEntry fs2 (responsesDecision base) e.1 :=
      fun e he => Or.inl (List.mem_map.mpr ⟨e, he, rfl⟩)
    have hcov4 : ∀ e ∈ fsInDir fs3 [base, "prompts"],
        e.1 ∈ (fsInDir fs3 [base, "prompts"]).map Prod.fst ∨
          DoneEntry fs3 (promptsDecision base) e.1 :=
      fun e he => Or.inl (List.mem_map.mpr ⟨e, he, rfl⟩)
    have hdone1 : SectionDone fs4 [base, "raw"] (rawDecision base) :=
      SectionDone_transfer [base, "raw"] (rawDecision base) [base, "prompts"] (promptsDecision base) rfl rfl hne14 hd1 hd4 hr4
        (SectionDone_transfer [base, "raw"] (rawDecision base) [base, "responses"] (responsesDecision base) rfl rfl hne13 hd1 hd3 hr3
          (SectionDone_transfer [base, "raw"] (rawDecision base) [base, "summaries"] (summariesDecision base) rfl rfl hne12 hd1 hd2 hr2
            (runSectionAux_done [base, "raw"] (rawDecision base) rfl hd1 _ _ _ _ _ hr1 hcov1)))
    have hdone2 : SectionDone fs4 [base, "summaries"] (summariesDecision base) :=
      SectionDone_transfer [base, "summaries"] (summariesDecision base) [base, "prompts"] (promptsDecision base) rfl rfl hne24 hd2 hd4 hr4
        (SectionDone_transfer [base, "summaries"] (summariesDecision base) [base, "responses"] (responsesDecision base) rfl rfl hne23 hd2 hd3 hr3
          (runSectionAux_done [base, "summaries"] (summariesDecision base) rfl hd2 _ _ _ _ _ hr2 hcov2))
    have hdone3 : SectionDone fs4 [base, "responses"] (responsesDecision base) :=
      SectionDone_transfer [base, "responses"] (responsesDecision base) [base, "prompts"] (promptsDecision base) rfl rfl hne34 hd3 hd4 hr4
        (runSectionAux_done [base, "responses"] (responsesDecision base) rfl hd3 _ _ _ _ _ hr3 hcov3)
    have hdone4 : SectionDone fs4 [base, "prompts"] (promptsDecision base) :=
      runSectionAux_done [base, "prompts"] (promptsDecision base) rfl hd4 _ _ _ _ _ hr4 hcov4
    have hn1 : runSection fs4 base "raw" (rawDecision base) = some (fs4, []) :=
      runSectionAux_noop _ _ _ _ _ (fun e he => hdone1 e he)
    have hn2 : runSection fs4 base "summaries" (summariesDecision base) =
        some (fs4, []) :=
      runSectionAux_noop _ _ _ _ _ (fun e he => hdone2 e he)
    have hn3 : runSection fs4 base "responses" (responsesDecision base) =
        some (fs4, []) :=
      runSectionAux_noop _ _ _ _ _ (fun e he => hdone3 e he)
    have hn4 : runSection fs4 base "prompts" (promptsDecision base) =
        some (fs4, []) :=
      runSectionAux_noop _ _ _ _ _ (fun e he => hdone4 e he)
    unfold migrate_legacy_data
    rw [hn1]
    dsimp only
    rw [hn2]
    dsimp only
    rw [hn3]
    dsimp only
    rw [hn4]
    rfl

theorem claim9_witness :
    migrate_legacy_data "data"
        [(["data", "raw", "papers_2024-01-05.jsonl"], JVal.null)] =
      some ([(["data", "2024-01-05", "raw", "papers.jsonl"], JVal.null)],
        [(["data", "raw", "papers_2024-01-05.jsonl"],
          ["data", "2024-01-05", "raw", "papers.jsonl"])]) ∧
    fsFind [(["data", "raw", "papers_2024-01-05.jsonl"], JVal.null)]
        ["data", "2024-01-05", "raw", "papers.jsonl"] = none ∧
    migrate_legacy_data "data"
        [(["data", "2024-01-05", "raw", "papers.jsonl"], JVal.null)] =
      some ([(["data", "2024-01-05", "raw", "papers.jsonl"], JVal.null)], []) := by
  have hmig : migrate_legacy_data "data"
      [(["data", "raw", "papers_2024-01-05.jsonl"], JVal.null)] =
      some ([(["data", "2024-01-05", "raw", "papers.jsonl"], JVal.null)],
        [(["data", "raw", "papers_2024-01-05.jsonl"],
          ["data", "2024-01-05", "raw", "papers.jsonl"])]) := by rfl
  have hmain := claim9_migration_idempotent "data"
    [(["data", "raw", "papers_2024-01-05.jsonl"], JVal.null)]
    [(["data", "2024-01-05", "raw", "papers.jsonl"], JVal.null)]
    [(["data", "raw", "papers_2024-01-05.jsonl"],
      ["data", "2024-01-05", "raw", "papers.jsonl"])] hmig
  refine ⟨hmig, ?_, hmain.2⟩
  exact hmain.1 _ (List.mem_singleton.mpr rfl)

/-- Externally visible events of one run of `main._run_once`, in execution
order: external calls and persisted artifacts. -/
inductive Ev where
  | fetch : Ev
  | saveRawPapers : Ev
  | saveState : Ev
  | callChunk (i : Nat) : Ev
  | saveResponse (i : Nat) : Ev
  | saveChunk (i : Nat) : Ev
  | callOverall : Ev
  | saveOverallResponse : Ev
  | saveOverallSummary : Ev
deriving DecidableEq

/-- The store-level view of the persistent data a run for one target day
reads and writes (the byte-level layout of these records is modelled and
verified separately): the dedup state, the day's raw snapshot (`none` when no
snapshot file exists, `some []` when a snapshot recording zero items exists),
the loaded Chunk Cache, the `has_summary_for_date` flag, and the overall
summary. -/
structure Store where
  state : RunState
  rawPapers : Option (List Paper)
  chunks : List (Nat × JVal)
  hasSummaryFiles : Bool
  overall : Option JVal

/-- The run's configuration and external collaborators: the chunk and overall
model texts are oracles (for a fixed day the chunk prompt is a function of
the batch, hence of the batch index), and `parse` is `json.loads`. -/
structure Env where
  apiKey : Bool
  today : Int
  retentionDays : Nat
  now : String
  fetchResult : List Paper
  chunkText : Nat → String
  overallText : List JVal → String
  parse : String → Option JVal

/-- Result of a run: the resulting store, the day's ordered chunk payloads,
the event trace, and whether the run completed without raising (`ok = false`
is an uncaught exception; the store and trace hold the effects already
performed). -/
structure RunResult where
  store : Store
  summaries : List JVal
  events : List Ev
  ok : Bool

/-- Structural worker for `chunkBatches`; the fuel is an upper bound on the
number of items and only makes the recursion structural. -/
def chunkBatchesAux (size : Nat) : Nat → List Paper → List (List Paper)
  | _, [] => []
  | 0, _ :: _ => []
  | fuel + 1, x :: xs => ((x :: xs).take size) :: chunkBatchesAux size fuel (xs.drop (size - 1))

/-- Model of `summarizer._chunk`: contiguous batches of at most `size`. -/
def chunkBatches (size : Nat) (l : List Paper) : List (List Paper) :=
  chunkBatchesAux size l.length l

/-- Partial result of the chunked summarization stream. -/
structure StreamOut where
  outputs : List (Nat × JVal)
  events : List Ev
  ok : Bool

/-- The loop of `summarizer.summarize_papers_stream` over the batches, with
1-based indices: a cached index is reused without any call; otherwise the
model is called, the raw response persisted (`on_response`, before parsing),
and the payload parsed with the `_extract_json` fallback; a parse failure
raises. -/
def summarizeStreamAux (env : Env) (existing : List (Nat × JVal)) :
    Nat → List (List Paper) → StreamOut
  | _, [] => ⟨[], [], true⟩
  | idx, _batch :: rest =>
      match existing.lookup idx with
      | some payload =>
          let r := summarizeStreamAux env existing (idx + 1) rest
          ⟨(idx, payload) :: r.outputs, r.events, r.ok⟩
      | none =>
          match parse_chunk_payload env.parse (env.chunkText idx) with
          | none => ⟨[], [Ev.callChunk idx, Ev.saveResponse idx], false⟩
          | some payload =>
              let r := summarizeStreamAux env existing (idx + 1) rest
              ⟨(idx, payload) :: r.outputs,
                Ev.callChunk idx :: Ev.saveResponse idx :: r.events, r.ok⟩

/-- Model of `summarizer.summarize_papers_stream`. -/
def summarize_papers_stream (env : Env) (papers : List Paper) (chunkSize : Nat)
    (existing : List (Nat × JVal)) : StreamOut :=
  if papers.isEmpty then ⟨[], [], true⟩
  else summarizeStreamAux env existing 1 (chunkBatches chunkSize papers)

/-- The delta rule of `main._run_once` (lines 77-86): with a reused snapshot
and either no summary files or fewer cached chunks than expected, every item
is treated as new; otherwise the delta is the items whose id is not in the
seen set. -/
def select_new_papers (storedNonempty hasSummary : Bool)
    (existingCount expected : Nat) (papers : List Paper) (seen : List String) :
    List Paper :=
  if storedNonempty && (!hasSummary || decide (existingCount < expected)) then papers
  else papers.filter (fun p => !(seen.contains p.paper_id))

/-- The new-papers list a run computes from its inputs (the prelude of
`main._run_once` up to line 86). -/
def new_papers_of (env : Env) (store : Store) : List Paper :=
  let storedPapers := store.rawPapers.getD []
  let papers := if storedPapers.isEmpty then env.fetchResult else storedPapers
  let expected := if papers.isEmpty then 0 else (papers.length + 20 - 1) / 20
  select_new_papers (!storedPapers.isEmpty) store.hasSummaryFiles
    store.chunks.length expected papers
    (build_seen_set env.today store.state env.retentionDays)

/-- Insertion into an index-sorted association list. -/
def insertSorted (p : Nat × JVal) : List (Nat × JVal) → List (Nat × JVal)
  | [] => [p]
  | q :: t => if p.1 ≤ q.1 then p :: q :: t else q :: insertSorted p t

/-- Python `for idx in sorted(existing_chunks)`: the cache in ascending
index order. -/
def sortByIndex (l : List (Nat × JVal)) : List (Nat × JVal) :=
  l.foldr insertSorted []

/-- The overall-summary stage of `main._run_once` (lines 133-148): reuse a
persisted overall summary; without an API key skip the stage; otherwise call
`summarize_overall`, which returns `{}` without any model call when there are
no chunk payloads, persists the raw response (`on_response`, pre-parse),
parses with the `_extract_json` fallback, and persists the result. -/
def overallPhase (env : Env) (store : Store) (summaries : List JVal)
    (evs : List Ev) : RunResult :=
  match store.overall with
  | some _ => ⟨store, summaries, evs, true⟩
  | none =>
      if env.apiKey then
        if summaries.isEmpty then
          ⟨{ store with overall := some (JVal.obj []) }, summaries,
            evs ++ [Ev.saveOverallSummary], true⟩
        else
          match parse_chunk_payload env.parse (env.overallText summaries) with
          | none =>
              ⟨store, summaries,
                evs ++ [Ev.callOverall, Ev.saveOverallResponse], false⟩
          | some payload =>
              ⟨{ store with overall := some payload }, summaries,
                evs ++ [Ev.callOverall, Ev.saveOverallResponse,
                  Ev.saveOverallSummary], true⟩
      else ⟨store, summaries, evs, true⟩

/-- The remainder of `main._run_once` after the snapshot stage: `store` is
the pre-run store (the code reads `stored_papers`, `has_summary_for_date` and
the chunk cache from it), `store₁` is the store after the snapshot stage, and
`ev₁` are the snapshot stage's events. -/
def run_computed (env : Env) (store₂ : Store) (existing : List (Nat × JVal))
    (so : StreamOut) (ev₂ : List Ev) : RunResult :=
  let saveEvs := so.outputs.filterMap
    (fun p => if (existing.lookup p.1).isSome then none
      else some (Ev.saveChunk p.1))
  let newChunks := so.outputs.filter (fun p => !(existing.lookup p.1).isSome)
  let store₃ := { store₂ with chunks := existing ++ newChunks }
  let store₄ :=
    { store₃ with hasSummaryFiles := store₃.hasSummaryFiles || !newChunks.isEmpty }
  overallPhase env store₄ (so.outputs.map Prod.snd) (ev₂ ++ so.events ++ saveEvs)

def run_rest (env : Env) (store store₁ : Store) (ev₁ : List Ev) (td : Int) :
    RunResult :=
  let existing := store.chunks
  let newPapers := new_papers_of env store
  let store₂ :=
    { store₁ with state := update_state_with_papers env.now store.state td newPapers }
  let ev₂ := ev₁ ++ [Ev.saveState]
  if newPapers.isEmpty then
    if existing.isEmpty then ⟨store₂, [], ev₂, true⟩
    else overallPhase env store₂ ((sortByIndex existing).map Prod.snd) ev₂
  else
    if env.apiKey then
      let so := summarize_papers_stream env newPapers 20 existing
      if so.ok then run_computed env store₂ existing so ev₂
      else ⟨store₂, [], ev₂ ++ so.events, false⟩
    else ⟨store₂, [], ev₂, true⟩

/-- Model of `main._run_once` for target day `td` (the e-mail stage performs
no writes and no summarizer calls and is omitted). -/
def run_once (env : Env) (store : Store) (td : Int) : RunResult :=
  let storedPapers := store.rawPapers.getD []
  if storedPapers.isEmpty then
    run_rest env store { store with rawPapers := some env.fetchResult }
      [Ev.fetch, Ev.saveRawPapers] td
  else run_rest env store store [] td

theorem overallPhase_summaries (env : Env) (s : Store) (sums : List JVal)
    (evs : List Ev) : (overallPhase env s sums evs).summaries = sums := by
  unfold overallPhase
  split
  · rfl
  · split
    · split
      · rfl
      · split <;> rfl
    · rfl

theorem overallPhase_store (env : Env) (s : Store) (sums : List JVal)
    (evs : List Ev) :
    (overallPhase env s sums evs).store.rawPapers = s.rawPapers ∧
    (overallPhase env s sums evs).store.chunks = s.chunks ∧
    (overallPhase env s sums evs).store.hasSummaryFiles = s.hasSummaryFiles ∧
    (overallPhase env s sums evs).store.state = s.state := by
  unfold overallPhase
  split
  · exact ⟨rfl, rfl, rfl, rfl⟩
  · split
    · split
      · exact ⟨rfl, rfl, rfl, rfl⟩
      · split <;> exact ⟨rfl, rfl, rfl, rfl⟩
    · exact ⟨rfl, rfl, rfl, rfl⟩

theorem overallPhase_events (env : Env) (s : Store) (sums : List JVal)
    (evs : List Ev) :
    ∃ tail, (overallPhase env s sums evs).events = evs ++ tail ∧
      ∀ e ∈ tail, e = Ev.callOverall ∨ e = Ev.saveOverallResponse ∨
        e = Ev.saveOverallSummary := by
  unfold overallPhase
  split
  · exact ⟨[], (List.append_nil evs).symm, fun e he => absurd he (by simp)⟩
  · split
    · split
      · refine ⟨[Ev.saveOverallSummary], rfl, ?_⟩
        intro e he
        rcases List.mem_singleton.mp he with rfl
        simp
      · split
        · refine ⟨[Ev.callOverall, Ev.saveOverallResponse], rfl, ?_⟩
          intro e he
          rcases List.mem_cons.mp he with rfl | he'
          · simp
          · rcases List.mem_singleton.mp he' with rfl
            simp
        · refine ⟨[Ev.callOverall, Ev.saveOverallResponse, Ev.saveOverallSummary],
            rfl, ?_⟩
          intro e he
          rcases List.mem_cons.mp he with rfl | he'
          · simp
          · rcases List.mem_cons.mp he' with rfl | he''
            · simp
            · rcases List.mem_singleton.mp he'' with rfl
              simp
    · exact ⟨[], (List.append_nil evs).symm, fun e he => absurd he (by simp)⟩

theorem overallPhase_quick (env : Env) (s : Store) (sums : List JVal)
    (evs : List Ev) (h : s.overall ≠ none ∨ env.apiKey = false) :
    overallPhase env s sums evs = ⟨s, sums, evs, true⟩ := by
  unfold overallPhase
  cases ho : s.overall with
  | some v => rfl
  | none =>
      rcases h with h | h
      · exact absurd ho h
      · rw [h]
        rfl

theorem overallPhase_ok_overall (env : Env) (s : Store) (sums : List JVal)
    (evs : List Ev) (h : (overallPhase env s sums evs).ok = true) :
    (overallPhase env s sums evs).store.overall ≠ none ∨ env.apiKey = false := by
  unfold overallPhase at h ⊢
  cases ho : s.overall with
  | some v =>
      left
      dsimp only
      rw [ho]
      simp
  | none =>
      rw [ho] at h
      dsimp only at h ⊢
      cases hk : env.apiKey with
      | false => exact Or.inr rfl
      | true =>
          rw [hk] at h
          rw [if_pos rfl] at h ⊢
          left
          cases hse : sums.isEmpty with
          | true =>
              rw [if_pos rfl]
              simp
          | false =>
              rw [if_neg (by simp [hse])] at h ⊢
              cases hp : parse_chunk_payload env.parse (env.overallText sums) with
              | none =>
                  rw [hp] at h
                  dsimp only at h
                  exact absurd h (by simp)
              | some payload =>
                  simp

theorem stream_event_kinds (env : Env) (ex : List (Nat × JVal)) :
    ∀ (bs : List (List Paper)) (idx : Nat),
      ∀ e ∈ (summarizeStreamAux env ex idx bs).events,
        (∃ i, e = Ev.callChunk i) ∨ (∃ i, e = Ev.saveResponse i) := by
  intro bs
  induction bs with
  | nil => intro idx e he; exact absurd he (by simp [summarizeStreamAux])
  | cons b rest ih =>
      intro idx e he
      unfold summarizeStreamAux at he
      cases hl : ex.lookup idx with
      | some payload =>
          rw [hl] at he
          dsimp only at he
          exact ih (idx + 1) e he
      | none =>
          rw [hl] at he
          dsimp only at he
          cases hp : parse_chunk_payload env.parse (env.chunkText idx) with
          | none =>
              rw [hp] at he
              dsimp only at he
              rcases List.mem_cons.mp he with rfl | he'
              · exact Or.inl ⟨idx, rfl⟩
              · rcases List.mem_singleton.mp he' with rfl
                exact Or.inr ⟨idx, rfl⟩
          | some payload =>
              rw [hp] at he
              dsimp only at he
              rcases List.mem_cons.mp he with rfl | he'
              · exact Or.inl ⟨idx, rfl⟩
              · rcases List.mem_cons.mp he' with rfl | he''
                · exact Or.inr ⟨idx, rfl⟩
                · exact ih (idx + 1) e he''

theorem stream_resp_before_call (env : Env) (ex : List (Nat × JVal)) :
    ∀ (bs : List (List Paper)) (idx : Nat) (u w : List Ev) (j : Nat),
      (summarizeStreamAux env ex idx bs).events = u ++ Ev.callChunk j :: w →
      ∀ i, Ev.callChunk i ∈ u → Ev.saveResponse i ∈ u := by
  intro bs
  induction bs with
  | nil =>
      intro idx u w j h i hi
      exact absurd h (by simp [summarizeStreamAux])
  | cons b rest ih =>
      intro idx u w j h i hi
      unfold summarizeStreamAux at h
      cases hl : ex.lookup idx with
      | some payload =>
          rw [hl] at h
          dsimp only at h
          exact ih (idx + 1) u w j h i hi
      | none =>
          rw [hl] at h
          dsimp only at h
          cases hp : parse_chunk_payload env.parse (env.chunkText idx) with
          | none =>
              rw [hp] at h
              dsimp only at h
              cases u with
              | nil => exact absurd hi (by simp)
              | cons a u' =>
                  injection h with h1 h2
                  cases u' with
                  | nil =>
                      injection h2 with h3 _
                      exact absurd h3 (by simp)
                  | cons a' u'' =>
                      injection h2 with h3 h4
                      have := congrArg List.length h4
                      simp at this
                      omega
          | some payload =>
              rw [hp] at h
              dsimp only at h
              cases u with
              | nil => exact absurd hi (by simp)
              | cons a u' =>
                  injection h with h1 h2
                  cases u' with
                  | nil =>
                      injection h2 with h3 _
                      exact absurd h3 (by simp)
                  | cons a' u'' =>
                      injection h2 with h3 h4
                      rcases List.mem_cons.mp hi with hcase | hcase
                      · have hidx : i = idx := by
                          rw [← h1] at hcase
                          injection hcase.symm with h5
                          exact h5.symm
                        subst hidx
                        rw [← h3]
                        exact List.mem_cons_of_mem _ (List.mem_cons_self _ _)
                      · rcases List.mem_cons.mp hcase with hcase' | hcase'
                        · rw [← h3] at hcase'
                          exact absurd hcase' (by simp)
                        · have := ih (idx + 1) u'' w j h4 i hcase'
                          exact List.mem_cons_of_mem _ (List.mem_cons_of_mem _ this)

theorem split_left {α : Type} (pre : List α) :
    ∀ (mid u w : List α) (a : α), a ∉ pre → pre ++ mid = u ++ a :: w →
      ∃ u₂, mid = u₂ ++ a :: w ∧ u = pre ++ u₂ := by
  induction pre with
  | nil =>
      intro mid u w a _ h
      exact ⟨u, by simpa using h, by simp⟩
  | cons p pre' ih =>
      intro mid u w a ha h
      cases u with
      | nil =>
          injection h with h1 _
          exfalso
          apply ha
          rw [← h1]
          exact List.mem_cons_self _ _
      | cons x u' =>
          injection h with h1 h2
          obtain ⟨u₂, hm, hu⟩ := ih mid u' w a
            (fun hmem => ha (List.mem_cons_of_mem _ hmem)) h2
          refine ⟨u₂, hm, ?_⟩
          rw [hu, ← h1]
          rfl

theorem split_right {α : Type} :
    ∀ (mid post u w : List α) (a : α), a ∉ post → mid ++ post = u ++ a :: w →
      ∃ u₂ w₂, mid = u₂ ++ a :: w₂ ∧ u = u₂ ∧ w = w₂ ++ post := by
  intro mid
  induction mid with
  | nil =>
      intro post u w a ha h
      exfalso
      apply ha
      have hpost : post = u ++ a :: w := by simpa using h
      rw [hpost]
      exact List.mem_append.mpr (Or.inr (List.mem_cons_self _ _))
  | cons m mid' ih =>
      intro post u w a ha h
      cases u with
      | nil =>
          injection h with h1 h2
          refine ⟨[], mid', ?_, rfl, h2.symm⟩
          rw [h1]
          rfl
      | cons x u' =>
          injection h with h1 h2
          obtain ⟨u₂, w₂, hm, hu, hw⟩ := ih post u' w a ha h2
          refine ⟨m :: u₂, w₂, ?_, ?_, hw⟩
          · rw [List.cons_append, ← hm]
          · rw [h1, hu]

theorem mem_upsertAppend_extend (l : List (Int × List String)) (d : Int)
    (ids : List String) (e : Int × List String) (he : e ∈ l) :
    ∃ ext, (e.1, e.2 ++ ext) ∈ upsertAppend l d ids := by
  induction l with
  | nil => cases he
  | cons a t ih =>
      rcases List.mem_cons.mp he with h | h
      · subst h
        by_cases hk : e.1 = d
        · refine ⟨ids, ?_⟩
          rcases e with ⟨k, v⟩
          simp only [upsertAppend]
          rw [if_pos hk]
          exact List.mem_cons_self _ _
        · refine ⟨[], ?_⟩
          rcases e with ⟨k, v⟩
          simp only [upsertAppend]
          rw [if_neg hk, List.append_nil]
          exact List.mem_cons_self _ _
      · rcases a with ⟨k, v⟩
        by_cases hk : k = d
        · refine ⟨[], ?_⟩
          simp only [upsertAppend]
          rw [if_pos hk, List.append_nil]
          exact List.mem_cons_of_mem _ (by rw [Prod.mk.eta]; exact h)
        · obtain ⟨ext, hmem⟩ := ih h
          refine ⟨ext, ?_⟩
          simp only [upsertAppend]
          rw [if_neg hk]
          exact List.mem_cons_of_mem _ hmem

theorem build_seen_set_monotone (today : Int) (st : RunState) (r : Nat)
    (now : String) (td : Int) (papers : List Paper) (x : String)
    (hx : x ∈ build_seen_set today st r) :
    x ∈ build_seen_set today (update_state_with_papers now st td papers) r := by
  unfold build_seen_set at hx ⊢
  rw [mem_foldr_append] at hx ⊢
  obtain ⟨e, hef, hxe⟩ := hx
  have hmem := (List.mem_filter.mp hef).1
  have hcond := (List.mem_filter.mp hef).2
  obtain ⟨ext, hm⟩ := mem_upsertAppend_extend st.seen_by_date td
    (papers.map (fun p => p.paper_id)) e hmem
  refine ⟨(e.1, e.2 ++ ext), List.mem_filter.mpr ⟨?_, hcond⟩,
    List.mem_append.mpr (Or.inl hxe)⟩
  show (e.1, e.2 ++ ext) ∈ (update_state_with_papers now st td papers).seen_by_date
  exact hm

theorem no_call_split {l : List Ev} (hnc : ∀ i, Ev.callChunk i ∉ l) :
    ∀ u w j, l = u ++ Ev.callChunk j :: w →
      ∀ i, Ev.callChunk i ∈ u → Ev.saveResponse i ∈ u := by
  intro u w j h i _
  exfalso
  apply hnc j
  rw [h]
  exact List.mem_append.mpr (Or.inr (List.mem_cons_self _ _))

theorem stream_kinds_top (env : Env) (papers : List Paper) (cs : Nat)
    (ex : List (Nat × JVal)) :
    ∀ e ∈ (summarize_papers_stream env papers cs ex).events,
      (∃ i, e = Ev.callChunk i) ∨ (∃ i, e = Ev.saveResponse i) := by
  unfold summarize_papers_stream
  split
  · intro e he; exact absurd he (by simp)
  · exact stream_event_kinds env ex (chunkBatches cs papers) 1

theorem stream_split_top (env : Env) (papers : List Paper) (cs : Nat)
    (ex : List (Nat × JVal)) :
    ∀ u w j, (summarize_papers_stream env papers cs ex).events =
        u ++ Ev.callChunk j :: w →
      ∀ i, Ev.callChunk i ∈ u → Ev.saveResponse i ∈ u := by
  unfold summarize_papers_stream
  split
  · intro u w j h i _
    exfalso
    have := congrArg List.length h
    simp at this
    omega
  · exact fun u w j h i hi =>
      stream_resp_before_call env ex (chunkBatches cs papers) 1 u w j h i hi

theorem saveEvs_kinds (ex : List (Nat × JVal)) (outputs : List (Nat × JVal)) :
    ∀ e ∈ outputs.filterMap
        (fun p => if (ex.lookup p.1).isSome then none else some (Ev.saveChunk p.1)),
      ∃ i, e = Ev.saveChunk i := by
  intro e he
  rcases List.mem_filterMap.mp he with ⟨p, _, hp⟩
  by_cases hs : (ex.lookup p.1).isSome
  · rw [if_pos hs] at hp; exact absurd hp (by simp)
  · rw [if_neg hs] at hp
    exact ⟨p.1, (Option.some.inj hp).symm⟩

theorem run_computed_shape (env : Env) (store₂ : Store)
    (existing : List (Nat × JVal)) (so : StreamOut) (ev₂ : List Ev) :
    ∃ (sEvs tail : List Ev),
      (run_computed env store₂ existing so ev₂).events =
        ev₂ ++ so.events ++ sEvs ++ tail ∧
      (∀ e ∈ sEvs, ∃ i, e = Ev.saveChunk i) ∧
      (∀ e ∈ tail, e = Ev.callOverall ∨ e = Ev.saveOverallResponse ∨
        e = Ev.saveOverallSummary) ∧
      (run_computed env store₂ existing so ev₂).store.rawPapers =
        store₂.rawPapers := by
  unfold run_computed
  dsimp only
  obtain ⟨tail, htl, hkinds⟩ := overallPhase_events env
    { store₂ with
        chunks := existing ++ so.outputs.filter (fun p => !(existing.lookup p.1).isSome),
        hasSummaryFiles := store₂.hasSummaryFiles ||
          !(so.outputs.filter (fun p => !(existing.lookup p.1).isSome)).isEmpty }
    (so.outputs.map Prod.snd)
    (ev₂ ++ so.events ++ so.outputs.filterMap
      (fun p => if (existing.lookup p.1).isSome then none
        else some (Ev.saveChunk p.1)))
  refine ⟨so.outputs.filterMap
      (fun p => if (existing.lookup p.1).isSome then none
        else some (Ev.saveChunk p.1)), tail, ?_, saveEvs_kinds existing so.outputs,
      hkinds, ?_⟩
  · rw [htl]
  · exact (overallPhase_store env _ _ _).1

theorem run_rest_shape (env : Env) (store store₁ : Store) (ev₁ : List Ev) (td : Int) :
    ∃ (streamEvs saveEvs otail : List Ev),
      (run_rest env store store₁ ev₁ td).events =
        ev₁ ++ [Ev.saveState] ++ streamEvs ++ saveEvs ++ otail ∧
      (∀ e ∈ streamEvs, (∃ i, e = Ev.callChunk i) ∨ (∃ i, e = Ev.saveResponse i)) ∧
      (∀ e ∈ saveEvs, ∃ i, e = Ev.saveChunk i) ∧
      (∀ e ∈ otail, e = Ev.callOverall ∨ e = Ev.saveOverallResponse ∨
        e = Ev.saveOverallSummary) ∧
      (∀ u w j, streamEvs = u ++ Ev.callChunk j :: w →
        ∀ i, Ev.callChunk i ∈ u → Ev.saveResponse i ∈ u) ∧
      (run_rest env store store₁ ev₁ td).store.rawPapers = store₁.rawPapers := by
  unfold run_rest
  dsimp only
  by_cases hnp : (new_papers_of env store).isEmpty = true
  · rw [if_pos hnp]
    by_cases hex : store.chunks.isEmpty = true
    · rw [if_pos hex]
      refine ⟨[], [], [], by simp, ?_, ?_, ?_, ?_, rfl⟩
      · intro e he; exact absurd he (by simp)
      · intro e he; exact absurd he (by simp)
      · intro e he; exact absurd he (by simp)
      · exact no_call_split (by intro i h; exact absurd h (by simp))
    · rw [if_neg hex]
      obtain ⟨tail, htl, hkinds⟩ := overallPhase_events env _
        ((sortByIndex store.chunks).map Prod.snd) (ev₁ ++ [Ev.saveState])
      refine ⟨[], [], tail, ?_, ?_, ?_, hkinds, ?_, ?_⟩
      · rw [htl]; simp
      · intro e he; exact absurd he (by simp)
      · intro e he; exact absurd he (by simp)
      · exact no_call_split (by intro i h; exact absurd h (by simp))
      · exact (overallPhase_store env _ _ _).1
  · rw [if_neg hnp]
    by_cases hak : env.apiKey = true
    · rw [if_pos hak]
      by_cases hok : (summarize_papers_stream env (new_papers_of env store) 20
          store.chunks).ok = true
      · rw [if_pos hok]
        obtain ⟨sEvs, tail, h1, h2, h3, h4⟩ := run_computed_shape env _ store.chunks
          (summarize_papers_stream env (new_papers_of env store) 20 store.chunks)
          (ev₁ ++ [Ev.saveState])
        refine ⟨(summarize_papers_stream env (new_papers_of env store) 20
            store.chunks).events, sEvs, tail, ?_, ?_, h2, h3, ?_, h4⟩
        · rw [h1]
        · exact stream_kinds_top env _ 20 store.chunks
        · exact stream_split_top env _ 20 store.chunks
      · rw [if_neg hok]
        refine ⟨(summarize_papers_stream env (new_papers_of env store) 20
            store.chunks).events, [], [], by simp [List.append_assoc], ?_, ?_, ?_, ?_, rfl⟩
        · exact stream_kinds_top env _ 20 store.chunks
        · intro e he; exact absurd he (by simp)
        · intro e he; exact absurd he (by simp)
        · exact stream_split_top env _ 20 store.chunks
    · rw [if_neg hak]
      refine ⟨[], [], [], by simp, ?_, ?_, ?_, ?_, rfl⟩
      · intro e he; exact absurd he (by simp)
      · intro e he; exact absurd he (by simp)
      · intro e he; exact absurd he (by simp)
      · exact no_call_split (by intro i h; exact absurd h (by simp))

theorem run_once_shape (env : Env) (store : Store) (td : Int) :
    ∃ (streamEvs saveEvs otail : List Ev),
      (run_once env store td).events =
        (if (store.rawPapers.getD []).isEmpty then [Ev.fetch, Ev.saveRawPapers] else [])
          ++ [Ev.saveState] ++ streamEvs ++ saveEvs ++ otail ∧
      (∀ e ∈ streamEvs, (∃ i, e = Ev.callChunk i) ∨ (∃ i, e = Ev.saveResponse i)) ∧
      (∀ e ∈ saveEvs, ∃ i, e = Ev.saveChunk i) ∧
      (∀ e ∈ otail, e = Ev.callOverall ∨ e = Ev.saveOverallResponse ∨
        e = Ev.saveOverallSummary) ∧
      (∀ u w j, streamEvs = u ++ Ev.callChunk j :: w →
        ∀ i, Ev.callChunk i ∈ u → Ev.saveResponse i ∈ u) ∧
      (run_once env store td).store.rawPapers =
        (if (store.rawPapers.getD []).isEmpty then some env.fetchResult
          else store.rawPapers) := by
  unfold run_once
  by_cases hsp : (store.rawPapers.getD []).isEmpty = true
  · rw [if_pos hsp, if_pos hsp, if_pos hsp]
    obtain ⟨a, b, c, h1, h2, h3, h4, h5, h6⟩ := run_rest_shape env store
      { store with rawPapers := some env.fetchResult } [Ev.fetch, Ev.saveRawPapers] td
    exact ⟨a, b, c, h1, h2, h3, h4, h5, h6⟩
  · rw [if_neg hsp, if_neg hsp, if_neg hsp]
    obtain ⟨a, b, c, h1, h2, h3, h4, h5, h6⟩ := run_rest_shape env store store [] td
    exact ⟨a, b, c, h1, h2, h3, h4, h5, h6⟩

theorem fetch_notin_parts (sEvs saveEvs otail : List Ev)
    (hk1 : ∀ e ∈ sEvs, (∃ i, e = Ev.callChunk i) ∨ (∃ i, e = Ev.saveResponse i))
    (hk2 : ∀ e ∈ saveEvs, ∃ i, e = Ev.saveChunk i)
    (hk3 : ∀ e ∈ otail, e = Ev.callOverall ∨ e = Ev.saveOverallResponse ∨
      e = Ev.saveOverallSummary) :
    Ev.fetch ∉ [Ev.saveState] ++ sEvs ++ saveEvs ++ otail := by
  intro hmem
  rcases List.mem_append.mp hmem with h | h
  · rcases List.mem_append.mp h with h' | h'
    · rcases List.mem_append.mp h' with h'' | h''
      · simp at h''
      · rcases hk1 _ h'' with ⟨i, hi⟩ | ⟨i, hi⟩ <;> simp at hi
    · rcases hk2 _ h' with ⟨i, hi⟩
      simp at hi
  · rcases hk3 _ h with hi | hi | hi <;> simp at hi

/-- A configuration with no API key, no SMTP, today 0 and an empty feed. -/
def envZero : Env :=
  { apiKey := false, today := 0, retentionDays := 0, now := "t",
    fetchResult := [], chunkText := fun _ => "", overallText := fun _ => "",
    parse := fun _ => none }

/-- A store holding a raw snapshot that records zero items. -/
def storeEmptySnap : Store :=
  { state := ⟨[], none⟩, rawPapers := some [], chunks := [],
    hasSummaryFiles := false, overall := none }

/-- A store with no raw snapshot at all. -/
def storeNoSnap : Store :=
  { state := ⟨[], none⟩, rawPapers := none, chunks := [],
    hasSummaryFiles := false, overall := none }

/-- C4 fails as stated: a raw snapshot for the day exists on disk recording
zero items, yet the run invokes the external fetcher (the code tests the
truthiness of the loaded item list, not the existence of the snapshot
file). -/
theorem claim4_counterexample :
    storeEmptySnap.rawPapers = some [] ∧
    Ev.fetch ∈ (run_once envZero storeEmptySnap 0).events := by
  refine ⟨rfl, ?_⟩
  decide

/-- C4 (amended): a run loads the stored snapshot and never invokes the
fetcher only when the snapshot records at least one item; when the snapshot
is absent or records zero items the fetcher is invoked first and the fetched
snapshot is persisted immediately afterwards, before any other step. -/
theorem claim4_amended (env : Env) (store : Store) (td : Int) :
    ((store.rawPapers.getD []).isEmpty = false →
      Ev.fetch ∉ (run_once env store td).events ∧
      (run_once env store td).store.rawPapers = store.rawPapers) ∧
    ((store.rawPapers.getD []).isEmpty = true →
      ∃ tail, (run_once env store td).events = Ev.fetch :: Ev.saveRawPapers :: tail ∧
        Ev.fetch ∉ tail ∧
        (run_once env store td).store.rawPapers = some env.fetchResult) := by
  obtain ⟨sEvs, saveEvs, otail, hev, hk1, hk2, hk3, _, hraw⟩ := run_once_shape env store td
  constructor
  · intro hsp
    rw [hsp] at hev hraw
    simp only [Bool.false_eq_true, if_false] at hev hraw
    refine ⟨?_, hraw⟩
    intro hmem
    rw [hev] at hmem
    rw [List.nil_append] at hmem
    exact fetch_notin_parts sEvs saveEvs otail hk1 hk2 hk3 hmem
  · intro hsp
    rw [hsp] at hev hraw
    simp only [if_true] at hev hraw
    refine ⟨[Ev.saveState] ++ sEvs ++ saveEvs ++ otail, ?_, ?_, hraw⟩
    · rw [hev]
      simp [List.append_assoc]
    · exact fetch_notin_parts sEvs saveEvs otail hk1 hk2 hk3

theorem claim4_witness :
    ∃ tail, (run_once envZero storeNoSnap 0).events =
        Ev.fetch :: Ev.saveRawPapers :: tail ∧
      Ev.fetch ∉ tail ∧
      (run_once envZero storeNoSnap 0).store.rawPapers = some envZero.fetchResult :=
  (claim4_amended envZero storeNoSnap 0).2 rfl

/-- The run's new-item selection as the claim words it (spec language, for
comparison with the code's `new_papers_of`): every snapshot item is new when
the snapshot is reused and strictly fewer chunks are cached than expected;
otherwise the delta is the items absent from the seen set. -/
def new_papers_spec (env : Env) (store : Store) : List Paper :=
  let storedPapers := store.rawPapers.getD []
  let papers := if storedPapers.isEmpty then env.fetchResult else storedPapers
  let expected := if papers.isEmpty then 0 else (papers.length + 20 - 1) / 20
  if (!storedPapers.isEmpty) && decide (store.chunks.length < expected) then papers
  else papers.filter (fun p =>
    !((build_seen_set env.today store.state env.retentionDays).contains p.paper_id))

/-- Recognizer for summarizer-call events. -/
def isCallChunk : Ev → Bool
  | Ev.callChunk _ => true
  | _ => false

/-- A generic item. -/
def pEx : Paper :=
  { paper_id := "p", title := "", summary := "", authors := [], link := "",
    category := "" }

/-- Configuration for the 45-item resumption scenario: an API key is present
and the model's chunk output parses to the payload tagged c3. -/
def envC3 : Env :=
  { apiKey := true, today := 0, retentionDays := 14, now := "t",
    fetchResult := [], chunkText := fun _ => "", overallText := fun _ => "",
    parse := fun _ => some (JVal.str "c3") }

/-- Store for the 45-item scenario: a reused 45-item snapshot, chunks 1 and 2
cached, and an overall summary already persisted. -/
def storeC3 : Store :=
  { state := ⟨[], none⟩, rawPapers := some (List.replicate 45 pEx),
    chunks := [(1, JVal.str "c1"), (2, JVal.str "c2")], hasSummaryFiles := true,
    overall := some (JVal.obj []) }

/-- C3: under the storage invariant that a day with no summary files has an
empty chunk cache, the run's new-item selection equals the claimed rule (all
snapshot items when the snapshot is reused and fewer chunks are cached than
expected, the seen-set delta otherwise); and in the 45-item scenario with
chunk size 20 and chunks 1 and 2 cached, the run calls the summarizer only
for chunk 3 and emits the three chunk payloads in index order. -/
theorem claim3_delta_rule :
    (∀ (env : Env) (store : Store),
      (store.hasSummaryFiles = false → store.chunks = []) →
      new_papers_of env store = new_papers_spec env store) ∧
    ((run_once envC3 storeC3 0).events.filter isCallChunk = [Ev.callChunk 3] ∧
      (run_once envC3 storeC3 0).summaries =
        [JVal.str "c1", JVal.str "c2", JVal.str "c3"] ∧
      (run_once envC3 storeC3 0).ok = true) := by
  constructor
  · intro env store hwf
    unfold new_papers_of new_papers_spec select_new_papers
    cases hsp : (store.rawPapers.getD []).isEmpty with
    | true => simp [hsp]
    | false =>
        cases hhs : store.hasSummaryFiles with
        | true => simp [hsp]
        | false =>
            have hch : store.chunks = [] := hwf hhs
            have hne : store.rawPapers.getD [] ≠ [] := by
              intro h
              rw [h] at hsp
              simp at hsp
            have hlen : 0 < (store.rawPapers.getD []).length :=
              List.length_pos.mpr hne
            simp [hsp, hch]
            rw [if_pos
              (show 0 < ((store.rawPapers.getD []).length + 19) / 20 by omega)]
  · refine ⟨by decide, rfl, rfl⟩

theorem claim3_witness :
    new_papers_of envZero storeNoSnap = new_papers_spec envZero storeNoSnap :=
  claim3_delta_rule.1 envZero storeNoSnap (fun _ => rfl)

/-- Configuration for a two-batch run: 21 items at chunk size 20, an API key,
and model output that always parses. -/
def envC1 : Env :=
  { apiKey := true, today := 0, retentionDays := 14, now := "t",
    fetchResult := List.replicate 21 pEx, chunkText := fun _ => "",
    overallText := fun _ => "", parse := fun _ => some (JVal.obj []) }

/-- A store with nothing persisted for the day except an overall summary
(isolating the chunk phase of the trace). -/
def storeC1 : Store :=
  { state := ⟨[], none⟩, rawPapers := none, chunks := [],
    hasSummaryFiles := false, overall := some (JVal.obj []) }

/-- C1 fails as stated: in a two-batch run the trace up to the second
summarizer call contains the first call but no chunk-summary save —
`_run_once` persists all parsed chunk summaries only after the stream
returns, so a stop between the two calls leaves no Chunk Summary on disk. -/
theorem claim1_counterexample :
    (run_once envC1 storeC1 0).events =
      [Ev.fetch, Ev.saveRawPapers, Ev.saveState, Ev.callChunk 1, Ev.saveResponse 1]
        ++ Ev.callChunk 2 :: [Ev.saveResponse 2, Ev.saveChunk 1, Ev.saveChunk 2] ∧
    Ev.callChunk 1 ∈ [Ev.fetch, Ev.saveRawPapers, Ev.saveState, Ev.callChunk 1,
      Ev.saveResponse 1] ∧
    Ev.saveChunk 1 ∉ [Ev.fetch, Ev.saveRawPapers, Ev.saveState, Ev.callChunk 1,
      Ev.saveResponse 1] := by
  refine ⟨by decide, by decide, by decide⟩

/-- C1 (amended): what is persisted immediately after each summarizer call is
the raw response — in every run, a call occurring before a later call has its
response event before that later call — while parsed Chunk Summaries are
deferred: every trace splits into a prefix with no chunk-summary save and a
suffix with no summarizer call. -/
theorem claim1_amended (env : Env) (store : Store) (td : Int) :
    (∃ l₁ l₂, (run_once env store td).events = l₁ ++ l₂ ∧
      (∀ i, Ev.saveChunk i ∉ l₁) ∧ (∀ i, Ev.callChunk i ∉ l₂)) ∧
    (∀ u w j, (run_once env store td).events = u ++ Ev.callChunk j :: w →
      ∀ i, Ev.callChunk i ∈ u → Ev.saveResponse i ∈ u) := by
  obtain ⟨sEvs, saveEvs, otail, hev, hk1, hk2, hk3, hord, _⟩ := run_once_shape env store td
  have hev' : (run_once env store td).events =
      ((if (store.rawPapers.getD []).isEmpty then [Ev.fetch, Ev.saveRawPapers]
        else []) ++ [Ev.saveState]) ++ (sEvs ++ (saveEvs ++ otail)) := by
    rw [hev]
    simp [List.append_assoc]
  have hnc₁ : ∀ j, Ev.callChunk j ∉
      (if (store.rawPapers.getD []).isEmpty then [Ev.fetch, Ev.saveRawPapers]
        else []) ++ [Ev.saveState] := by
    intro j hmem
    rcases List.mem_append.mp hmem with h | h
    · split at h <;> simp at h
    · simp at h
  have hnc₂ : ∀ j, Ev.callChunk j ∉ saveEvs ++ otail := by
    intro j hmem
    rcases List.mem_append.mp hmem with h | h
    · rcases hk2 _ h with ⟨i, hi⟩
      simp at hi
    · rcases hk3 _ h with hi | hi | hi <;> simp at hi
  constructor
  · refine ⟨((if (store.rawPapers.getD []).isEmpty then [Ev.fetch, Ev.saveRawPapers]
      else []) ++ [Ev.saveState]) ++ sEvs, saveEvs ++ otail, ?_, ?_, hnc₂⟩
    · rw [hev']
      simp [List.append_assoc]
    · intro i hmem
      rcases List.mem_append.mp hmem with h | h
      · rcases List.mem_append.mp h with h' | h'
        · split at h' <;> simp at h'
        · simp at h'
      · rcases hk1 _ h with ⟨k, hk⟩ | ⟨k, hk⟩ <;> simp at hk
  · intro u w j h i hi
    obtain ⟨u₂, hmid, hu⟩ :=
      split_left _ _ _ _ _ (hnc₁ j) (hev'.symm.trans h)
    obtain ⟨u₃, w₂, hsE, hu23, _⟩ :=
      split_right sEvs (saveEvs ++ otail) u₂ w (Ev.callChunk j) (hnc₂ j) hmid
    rw [hu] at hi
    rcases List.mem_append.mp hi with h' | h'
    · exact absurd h' (hnc₁ i)
    · rw [hu23] at h'
      have hresp := hord u₃ w₂ j hsE i h'
      rw [hu, hu23]
      exact List.mem_append.mpr (Or.inr hresp)

theorem claim1_witness :
    Ev.saveResponse 1 ∈ [Ev.fetch, Ev.saveRawPapers, Ev.saveState,
      Ev.callChunk 1, Ev.saveResponse 1] :=
  (claim1_amended envC1 storeC1 0).2
    [Ev.fetch, Ev.saveRawPapers, Ev.saveState, Ev.callChunk 1, Ev.saveResponse 1]
    [Ev.saveResponse 2, Ev.saveChunk 1, Ev.saveChunk 2] 2 (by decide) 1 (by decide)

theorem new_papers_nil (env : Env) (store : Store) (papers : List Paper)
    (hraw : store.rawPapers = some papers)
    (hpne : papers.isEmpty = false)
    (hsum : store.hasSummaryFiles = true)
    (hfull : (papers.length + 20 - 1) / 20 ≤ store.chunks.length)
    (hseen : ∀ p ∈ papers,
      p.paper_id ∈ build_seen_set env.today store.state env.retentionDays) :
    new_papers_of env store = [] := by
  unfold new_papers_of select_new_papers
  rw [hraw]
  simp only [Option.getD_some]
  rw [hpne, hsum]
  simp only [Bool.not_false, Bool.true_and, Bool.not_true, Bool.false_or,
    Bool.false_eq_true, if_false]
  simp only [hpne, Bool.false_eq_true, if_false]
  rw [decide_eq_false (by omega : ¬ store.chunks.length < (papers.length + 20 - 1) / 20)]
  simp only [Bool.false_eq_true, if_false]
  rw [List.filter_eq_nil_iff]
  intro p hp
  simp [List.contains, List.elem_iff, hseen p hp]

theorem run_once_cached (env : Env) (store : Store) (td : Int)
    (hne : (store.rawPapers.getD []).isEmpty = false)
    (hnew : new_papers_of env store = [])
    (hch : store.chunks.isEmpty = false) :
    run_once env store td =
      overallPhase env
        { store with state := update_state_with_papers env.now store.state td [] }
        ((sortByIndex store.chunks).map Prod.snd) [Ev.saveState] := by
  simp only [run_once, run_rest, hne, hnew, hch, Bool.false_eq_true, if_false,
    List.isEmpty_nil, if_true, List.nil_append]

/-- C2: for a day with a reused snapshot whose items are all in the seen set
and a chunk cache covering every expected index (summary files present and at
least `ceil(n / 20)` cached chunks), a run performs zero external summarizer
calls and returns the cached chunk summaries in index order, and running the
pipeline again on the resulting store again performs zero summarizer calls
and returns the same chunk summaries as the previous run. -/
theorem claim2_idempotent_rerun (env : Env) (store : Store) (td : Int)
    (papers : List Paper)
    (hraw : store.rawPapers = some papers)
    (hpne : papers.isEmpty = false)
    (hsum : store.hasSummaryFiles = true)
    (hchne : store.chunks.isEmpty = false)
    (hfull : (papers.length + 20 - 1) / 20 ≤ store.chunks.length)
    (hseen : ∀ p ∈ papers,
      p.paper_id ∈ build_seen_set env.today store.state env.retentionDays) :
    (run_once env store td).events.filter isCallChunk = [] ∧
    (run_once env store td).summaries = (sortByIndex store.chunks).map Prod.snd ∧
    (run_once env (run_once env store td).store td).events.filter isCallChunk = [] ∧
    (run_once env (run_once env store td).store td).summaries =
      (run_once env store td).summaries := by
  have hne : (store.rawPapers.getD []).isEmpty = false := by
    rw [hraw]
    simpa using hpne
  have hnew := new_papers_nil env store papers hraw hpne hsum hfull hseen
  have h1 := run_once_cached env store td hne hnew hchne
  obtain ⟨tail, htl, hkinds⟩ := overallPhase_events env
    { store with state := update_state_with_papers env.now store.state td [] }
    ((sortByIndex store.chunks).map Prod.snd) [Ev.saveState]
  obtain ⟨hraw1, hch1, hsum1, hst1⟩ := overallPhase_store env
    { store with state := update_state_with_papers env.now store.state td [] }
    ((sortByIndex store.chunks).map Prod.snd) [Ev.saveState]
  have hfilter : ∀ (l : List Ev),
      (∀ e ∈ l, e = Ev.callOverall ∨ e = Ev.saveOverallResponse ∨
        e = Ev.saveOverallSummary) →
      l.filter isCallChunk = [] := by
    intro l hl
    rw [List.filter_eq_nil_iff]
    intro e he
    rcases hl e he with h | h | h <;> subst h <;> simp [isCallChunk]
  have hc1 : (run_once env store td).events.filter isCallChunk = [] := by
    rw [h1, htl, List.filter_append, hfilter tail hkinds, List.append_nil]
    rfl
  have hs1 : (run_once env store td).summaries =
      (sortByIndex store.chunks).map Prod.snd := by
    rw [h1, overallPhase_summaries]
  have hraw2 : (run_once env store td).store.rawPapers = some papers := by
    rw [h1, hraw1]
    exact hraw
  have hch2 : (run_once env store td).store.chunks = store.chunks := by
    rw [h1, hch1]
  have hsum2 : (run_once env store td).store.hasSummaryFiles = true := by
    rw [h1, hsum1]
    exact hsum
  have hchne2 : (run_once env store td).store.chunks.isEmpty = false := by
    rw [hch2]
    exact hchne
  have hfull2 : (papers.length + 20 - 1) / 20 ≤
      (run_once env store td).store.chunks.length := by
    rw [hch2]
    exact hfull
  have hseen2 : ∀ p ∈ papers, p.paper_id ∈
      build_seen_set env.today (run_once env store td).store.state
        env.retentionDays := by
    intro p hp
    rw [h1, hst1]
    exact build_seen_set_monotone env.today store.state env.retentionDays
      env.now td [] p.paper_id (hseen p hp)
  have hne2 : ((run_once env store td).store.rawPapers.getD []).isEmpty = false := by
    rw [hraw2]
    simpa using hpne
  have hnew2 := new_papers_nil env (run_once env store td).store papers hraw2
    hpne hsum2 hfull2 hseen2
  have h2 := run_once_cached env (run_once env store td).store td hne2 hnew2 hchne2
  obtain ⟨tail₂, htl₂, hkinds₂⟩ := overallPhase_events env
    { (run_once env store td).store with
        state := update_state_with_papers env.now (run_once env store td).store.state
          td [] }
    ((sortByIndex (run_once env store td).store.chunks).map Prod.snd) [Ev.saveState]
  refine ⟨hc1, hs1, ?_, ?_⟩
  · rw [h2, htl₂, List.filter_append, hfilter tail₂ hkinds₂, List.append_nil]
    rfl
  · rw [h2, overallPhase_summaries, hch2, hs1]

/-- Configuration for the cached-rerun scenario. -/
def envC2 : Env :=
  { apiKey := true, today := 0, retentionDays := 14, now := "t",
    fetchResult := [], chunkText := fun _ => "", overallText := fun _ => "",
    parse := fun _ => none }

/-- A fully processed day: one-item snapshot, its id recorded as seen, one
cached chunk, summary files and an overall summary present. -/
def storeC2 : Store :=
  { state := ⟨[(0, ["p"])], none⟩, rawPapers := some [pEx],
    chunks := [(1, JVal.str "c1")], hasSummaryFiles := true,
    overall := some (JVal.obj []) }

theorem claim2_witness :
    (run_once envC2 storeC2 0).events.filter isCallChunk = [] ∧
    (run_once envC2 storeC2 0).summaries =
      (sortByIndex storeC2.chunks).map Prod.snd ∧
    (run_once envC2 (run_once envC2 storeC2 0).store 0).events.filter
      isCallChunk = [] ∧
    (run_once envC2 (run_once envC2 storeC2 0).store 0).summaries =
      (run_once envC2 storeC2 0).summaries :=
  claim2_idempotent_rerun envC2 storeC2 0 [pEx] rfl rfl rfl rfl (by decide)
    (fun p hp => by
      rw [List.mem_singleton.mp hp]
      decide)

end ArxivDigest
